import Mathlib

/-!
# boost/core/bit.hpp — a shallow embedding and its verification

The header is a collection of pure functions over unsigned integers of the four
widths 8, 16, 32 and 64.  Values of an unsigned `T` are modelled as natural
numbers below `2 ^ digits T`; `int` values are modelled as integers between
`-2^31` and `2^31 - 1`.  Conversions to an unsigned type reduce modulo its
width, unsigned arithmetic wraps, and negation of an `int` wraps (two's
complement), which only matters at the single value `INT_MIN`.
-/

namespace Boost.Core

/-! ## Data model -/

/-- The four unsigned integer types accepted by the templates
(`uint8_t`, `uint16_t`, `uint32_t`, `uint64_t`). -/
inductive UIntT where
  | u8
  | u16
  | u32
  | u64
  deriving DecidableEq, Repr

/-- The value of `std::numeric_limits<T>::digits` for unsigned `T`. -/
def digits : UIntT → Nat
  | .u8 => 8
  | .u16 => 16
  | .u32 => 32
  | .u64 => 64

/-- Conversion of an integer to the unsigned type of `w` bits (reduction modulo `2^w`). -/
def toUnsigned (w : Nat) (z : Int) : Nat :=
  (z % (2 : Int) ^ w).toNat

/-- Conversion of an integer to `T`: `static_cast<T>( z )`. -/
def castT (T : UIntT) (z : Int) : Nat :=
  toUnsigned (digits T) z

/-- Conversion of an integer to `int32_t` (two's complement wraparound). -/
def toInt32 (z : Int) : Int :=
  (z + 2 ^ 31) % 2 ^ 32 - 2 ^ 31

/-- Unary minus on an `int`, wrapping at `INT_MIN`. -/
def negInt (s : Int) : Int :=
  toInt32 (-s)

/-- The range of `int` (32 bits, two's complement). -/
def IsInt32 (s : Int) : Prop :=
  -(2 : Int) ^ 31 ≤ s ∧ s < (2 : Int) ^ 31

instance (s : Int) : Decidable (IsInt32 s) := by
  unfold IsInt32; infer_instance

/-! ## Counting leading zeros -/

/-- The table `mod37` of `detail::countl_impl( uint32_t )`. -/
def countl_mod37 : List Nat :=
  [32, 31, 6, 30, 9, 5, 0, 29, 16, 8, 2, 4, 21, 0, 19, 28, 25, 15, 0, 7, 10, 1, 17, 3, 22, 20,
   26, 0, 11, 18, 23, 27, 12, 24, 13, 14, 0]

/-- The five statements `x |= x >> 1; … x |= x >> 16;` on a `uint32_t`. -/
def smear32 (x : Nat) : Nat :=
  let x := x ||| (x >>> 1)
  let x := x ||| (x >>> 2)
  let x := x ||| (x >>> 4)
  let x := x ||| (x >>> 8)
  let x := x ||| (x >>> 16)
  x

/-- Source function `detail::countl_impl( boost::uint32_t x )`.  The index `x % 37` is always
inside the table, so the default of `getD` is never used. -/
def countl_impl_u32 (x : Nat) : Int :=
  ((countl_mod37.getD (smear32 x % 37) 0 : Nat) : Int)

/-- Source function `detail::countl_impl( boost::uint64_t x )`. -/
def countl_impl_u64 (x : Nat) : Int :=
  if (x >>> 32) % 2 ^ 32 ≠ 0 then
    countl_impl_u32 ((x >>> 32) % 2 ^ 32)
  else
    countl_impl_u32 (x % 2 ^ 32) + 32

/-- Source function `detail::countl_impl( boost::uint8_t x )`. -/
def countl_impl_u8 (x : Nat) : Int :=
  countl_impl_u32 (x % 2 ^ 32) - 24

/-- Source function `detail::countl_impl( boost::uint16_t x )`. -/
def countl_impl_u16 (x : Nat) : Int :=
  countl_impl_u32 (x % 2 ^ 32) - 16

/-- Source function `countl_zero<T>( x )`: dispatch on `sizeof(T)`. -/
def countl_zero (T : UIntT) (x : Nat) : Int :=
  match T with
  | .u8 => countl_impl_u8 (x % 2 ^ 8)
  | .u16 => countl_impl_u16 (x % 2 ^ 16)
  | .u32 => countl_impl_u32 (x % 2 ^ 32)
  | .u64 => countl_impl_u64 (x % 2 ^ 64)

/-- Reference count of the consecutive zero bits of `x` below position `W`,
scanning from bit `W - 1` downwards. -/
def leadingZeros : Nat → Nat → Nat
  | 0, _ => 0
  | W + 1, x => if x.testBit W then 0 else leadingZeros W x + 1

/-! ## Counting trailing zeros -/

/-- The table `mod37` of `detail::countr_impl( uint32_t )`. -/
def countr_mod37 : List Nat :=
  [32, 0, 1, 26, 2, 23, 27, 0, 3, 16, 24, 30, 28, 11, 0, 13, 4, 7, 17, 0, 25, 22, 31, 15, 29, 10,
   12, 6, 0, 21, 14, 9, 5, 20, 8, 19, 18]

/-- Source function `detail::countr_impl( boost::uint32_t x )`: the index is
`( -(boost::int32_t)x & x ) % 37`, where `x` is converted to `int32_t`, negated
as an `int`, and converted back to `uint32_t` by the `&` with `x`. -/
def countr_impl_u32 (x : Nat) : Int :=
  ((countr_mod37.getD ((toUnsigned 32 (negInt (toInt32 x)) &&& x) % 37) 0 : Nat) : Int)

/-- Source function `detail::countr_impl( boost::uint64_t x )`. -/
def countr_impl_u64 (x : Nat) : Int :=
  if x % 2 ^ 32 ≠ 0 then
    countr_impl_u32 (x % 2 ^ 32)
  else
    countr_impl_u32 ((x >>> 32) % 2 ^ 32) + 32

/-- Source function `detail::countr_impl( boost::uint8_t x )`. -/
def countr_impl_u8 (x : Nat) : Int :=
  countr_impl_u32 ((x % 2 ^ 32) ||| 0x100)

/-- Source function `detail::countr_impl( boost::uint16_t x )`. -/
def countr_impl_u16 (x : Nat) : Int :=
  countr_impl_u32 ((x % 2 ^ 32) ||| 0x10000)

/-- Source function `countr_zero<T>( x )`: dispatch on `sizeof(T)`. -/
def countr_zero (T : UIntT) (x : Nat) : Int :=
  match T with
  | .u8 => countr_impl_u8 (x % 2 ^ 8)
  | .u16 => countr_impl_u16 (x % 2 ^ 16)
  | .u32 => countr_impl_u32 (x % 2 ^ 32)
  | .u64 => countr_impl_u64 (x % 2 ^ 64)

/-! ## Rotating -/

/-- Width of the type an operand of type `T` has after integral promotion:
`int` (32 bits) for the 8- and 16-bit types, `T` itself otherwise. -/
def promotedBits : UIntT → Nat
  | .u8 => 32
  | .u16 => 32
  | .u32 => 32
  | .u64 => 64

/-- The shift `x << k` for `x` of type `T` and `k < digits T`.  For the 8- and 16-bit
types the shift is done on `int`, where `x * 2^k < 2^31` is exact; for the 32-
and 64-bit types it is done on `T` and wraps. -/
def shlT (T : UIntT) (x k : Nat) : Nat :=
  match T with
  | .u8 => x <<< k
  | .u16 => x <<< k
  | .u32 => (x <<< k) % 2 ^ 32
  | .u64 => (x <<< k) % 2 ^ 64

/-- The conversion `static_cast<T>` of a non-negative value. -/
def truncT (T : UIntT) (n : Nat) : Nat :=
  n % 2 ^ digits T

/-- Source function `rotl<T>( x, s )`: `x << (s & mask) | x >> ((-s) & mask)` with
`unsigned const mask = digits - 1`; both `s` and `-s` are converted to
`unsigned` by the `&`. -/
def rotl (T : UIntT) (x : Nat) (s : Int) : Nat :=
  let mask : Nat := digits T - 1
  truncT T (shlT T x (toUnsigned 32 s &&& mask) ||| (x >>> (toUnsigned 32 (negInt s) &&& mask)))

/-- Source function `rotr<T>( x, s )`: `x >> (s & mask) | x << ((-s) & mask)`. -/
def rotr (T : UIntT) (x : Nat) (s : Int) : Nat :=
  let mask : Nat := digits T - 1
  truncT T ((x >>> (toUnsigned 32 s &&& mask)) ||| shlT T x (toUnsigned 32 (negInt s) &&& mask))

/-! ## Integral powers of 2 -/

/-- The value `x - 1` in the promoted type of `T`, as a bit pattern (wraps at zero). -/
def subOne (T : UIntT) (x : Nat) : Nat :=
  (x + 2 ^ promotedBits T - 1) % 2 ^ promotedBits T

/-- Source function `has_single_bit<T>( x )`: `x != 0 && ( x & ( x - 1 ) ) == 0`. -/
def has_single_bit (T : UIntT) (x : Nat) : Bool :=
  x != 0 && (x &&& subOne T x) == 0

/-- Source function `bit_width<T>( x )`: `digits - countl_zero( x )`, an `int` converted to `T`. -/
def bit_width (T : UIntT) (x : Nat) : Nat :=
  castT T ((digits T : Int) - countl_zero T x)

/-- Source function `bit_floor<T>( x )`: `x == 0? 0: T(1) << ( bit_width( x ) - 1 )`.  The shift
amount is computed only for `x != 0`, where `bit_width( x )` is at least 1. -/
def bit_floor (T : UIntT) (x : Nat) : Nat :=
  if x = 0 then 0 else truncT T (shlT T 1 (bit_width T x - 1))

/-- The six statements `x |= x >> 1; … x |= x >> 32;` on a `uint64_t`. -/
def smear64 (x : Nat) : Nat :=
  let x := x ||| (x >>> 1)
  let x := x ||| (x >>> 2)
  let x := x ||| (x >>> 4)
  let x := x ||| (x >>> 8)
  let x := x ||| (x >>> 16)
  let x := x ||| (x >>> 32)
  x

/-- Source function `detail::bit_ceil_impl( boost::uint32_t x )`. -/
def bit_ceil_impl_u32 (x : Nat) : Nat :=
  if x = 0 then 0 else (smear32 (x - 1) + 1) % 2 ^ 32

/-- Source function `detail::bit_ceil_impl( boost::uint64_t x )`. -/
def bit_ceil_impl_u64 (x : Nat) : Nat :=
  if x = 0 then 0 else (smear64 (x - 1) + 1) % 2 ^ 64

/-- Source function `bit_ceil<T>( x )`: through the 32-bit kernel when `sizeof(T) <= 4`, through
the 64-bit kernel otherwise, the result converted back to `T`. -/
def bit_ceil (T : UIntT) (x : Nat) : Nat :=
  match T with
  | .u8 => truncT .u8 (bit_ceil_impl_u32 (x % 2 ^ 32))
  | .u16 => truncT .u16 (bit_ceil_impl_u32 (x % 2 ^ 32))
  | .u32 => truncT .u32 (bit_ceil_impl_u32 (x % 2 ^ 32))
  | .u64 => truncT .u64 (bit_ceil_impl_u64 (x % 2 ^ 64))

/-- Reference population count: the number of set bits among the `W` low bits of `x`. -/
def popcountRef : Nat → Nat → Nat
  | 0, _ => 0
  | W + 1, x => x % 2 + popcountRef W (x / 2)

/-! ## Counting ones and population count -/

/-- The conversion `static_cast<T>( ~x )`: the complement is taken in the promoted type,
where its value is `-x - 1` as a bit pattern, and converted back to `T`. -/
def complT (T : UIntT) (x : Nat) : Nat :=
  castT T (-(x : Int) - 1)

/-- Source function `countl_one<T>( x )`: `countl_zero( static_cast<T>( ~x ) )`. -/
def countl_one (T : UIntT) (x : Nat) : Int :=
  countl_zero T (complT T x)

/-- Source function `countr_one<T>( x )`: `countr_zero( static_cast<T>( ~x ) )`. -/
def countr_one (T : UIntT) (x : Nat) : Int :=
  countr_zero T (complT T x)

/-- Reference count of the consecutive one bits of `x` below position `W`,
scanning from bit `W - 1` downwards. -/
def leadingOnes : Nat → Nat → Nat
  | 0, _ => 0
  | W + 1, x => if x.testBit W then leadingOnes W x + 1 else 0

/-- Reference count of the consecutive one bits of `x` from bit 0 upwards, at most `W`. -/
def trailingOnes : Nat → Nat → Nat
  | 0, _ => 0
  | W + 1, x => if x % 2 = 1 then trailingOnes W (x / 2) + 1 else 0

/-- Modelled from the spec: the body of `popcount`, of which the header only has the
declaration.  The loop is the one the spec names, "repeated `x &= x-1` bit-clearing loop
bounded by set-bit count": each round clears the lowest set bit and counts it.  The first
argument bounds the number of rounds. -/
def popcount_loop : Nat → Nat → Nat
  | 0, _ => 0
  | rounds + 1, x => if x = 0 then 0 else popcount_loop rounds (x &&& (x - 1)) + 1

/-- Modelled from the spec: `popcount<T>( x )`, "the number of set bits in `x`", computed by
the bit-clearing loop with at most `digits` rounds. -/
def popcount (T : UIntT) (x : Nat) : Int :=
  (popcount_loop (digits T) (x % 2 ^ digits T) : Nat)

/-! ## The string view

A view is modelled by the list of the characters `p_[0], …, p_[n_ - 1]`; pointers into the
view are offsets from `data()`, and a null pointer result is `none`.  `size_type` is taken
to be 64 bits wide. -/

namespace basic_string_view

/-- The constant `npos = static_cast<size_type>( -1 )`. -/
def npos : Nat := 2 ^ 64 - 1

/-- The exception thrown through `boost::throw_exception`. -/
inductive Exception where
  | out_of_range
  deriving DecidableEq, Repr

/-- Source function `size()`. -/
def size {Ch : Type} (v : List Ch) : Nat := v.length

/-- Source function `operator[]( pos )`: `p_[ pos ]` under `BOOST_ASSERT( pos < size() )`;
`none` stands for a violated assertion. -/
def operator_index {Ch : Type} (v : List Ch) (pos : Nat) : Option Ch :=
  if h : pos < size v then some (v.get ⟨pos, h⟩) else none

/-- Source function `at( pos )`. -/
def at_ {Ch : Type} (v : List Ch) (pos : Nat) : Except Exception Ch :=
  if h : pos ≥ size v then .error .out_of_range
  else .ok (v.get ⟨pos, Nat.lt_of_not_le h⟩)

/-- Source function `substr( pos, n )`: the view `basic_string_view( data() + pos, rlen )`
with `rlen = min( n, size() - pos )`. -/
def substr {Ch : Type} (v : List Ch) (pos n : Nat) : Except Exception (List Ch) :=
  if pos > size v then .error .out_of_range
  else
    let rlen := min n (size v - pos)
    .ok ((v.drop pos).take rlen)

/-- Modelled from the spec: the host string library's character-sequence primitive
`traits_type::find( p, count, c )`, the position of the first character equal to `c` among
the `count` characters from `p` on, or the null pointer `none` when there is none. -/
def traits_find {Ch : Type} [DecidableEq Ch] (v : List Ch) : Nat → Nat → Ch → Option Nat
  | _, 0, _ => none
  | p, count + 1, c => if v[p]? = some c then some p else traits_find v (p + 1) count c

/-- Modelled from the spec: the host string library's character-sequence comparison primitive
`traits_type::compare( s1, s2, count )`: negative, zero or positive as the first `count`
characters of `s1` are lexicographically less than, equal to or greater than those of `s2`.
Only the sign is specified; `-1` and `1` are taken as its values.  Callers pass a `count` not
exceeding either length, so the last case is never reached. -/
def traits_compare {Ch : Type} [LinearOrder Ch] : List Ch → List Ch → Nat → Int
  | _, _, 0 => 0
  | x :: xs, y :: ys, count + 1 =>
    if x < y then -1 else if y < x then 1 else traits_compare xs ys count
  | _, _, _ + 1 => 0

/-- Source function `compare( str )`. -/
def compare {Ch : Type} [LinearOrder Ch] (v str : List Ch) : Int :=
  let rlen := min (size v) (size str)
  let cmp := traits_compare v str rlen
  if cmp ≠ 0 then cmp
  else if size v = size str then 0
  else if size v < size str then -1 else 1

/-- The `for( ;; )` loop of `find( s, pos, n )`, with `p` an offset from `data()` and
`last = data() + size()`.  The first argument bounds the number of rounds; `none` means the
bound was too small. -/
def find_loop {Ch : Type} [LinearOrder Ch] (v s : List Ch) (n : Nat) (c0 : Ch) :
    Nat → Nat → Option Nat
  | 0, _ => none
  | rounds + 1, p =>
    match traits_find v p (size v - p) c0 with
    | none => some npos
    | some q =>
      if size v - q < n then some npos
      else if traits_compare (v.drop q) s n = 0 then some q
      else find_loop v s n c0 rounds (q + 1)

/-- Source function `find( Ch const* s, size_type pos, size_type n )`.  The sum `pos + n` is
computed in `size_type` and wraps; the loop reads `s[0]`, which needs a non-empty `s`
(`none` otherwise). -/
def find {Ch : Type} [LinearOrder Ch] (v s : List Ch) (pos n : Nat) : Option Nat :=
  if (pos + n) % 2 ^ 64 > size v then some npos
  else if n = 0 then some pos
  else
    match s with
    | [] => none
    | c0 :: _ => find_loop v s n c0 (size v - pos + 1) pos

/-- The loop `for( i = pos; i > 0; --i )` of `find_last_not_of( c, pos )`, which tests
`p_[ i - 1 ]`. -/
def find_last_not_of_loop {Ch : Type} [DecidableEq Ch] (v : List Ch) (c : Ch) : Nat → Nat
  | 0 => npos
  | i + 1 => if v[i]? ≠ some c then i else find_last_not_of_loop v c i

/-- Source function `find_last_not_of( Ch c, size_type pos )`. -/
def find_last_not_of {Ch : Type} [DecidableEq Ch] (v : List Ch) (c : Ch) (pos : Nat) : Nat :=
  find_last_not_of_loop v c (if pos > size v then size v else pos)

/-- Source function `contains( Ch c )`: `traits_type::find( data(), size(), c ) == 0`. -/
def contains {Ch : Type} [DecidableEq Ch] (v : List Ch) (c : Ch) : Bool :=
  (traits_find v 0 (size v) c).isNone

/-- The claim's order on views: `a` is a proper prefix of `b`, or at the first position where
they differ the character of `a` is the smaller one. -/
def LexLt {Ch : Type} [LinearOrder Ch] (a b : List Ch) : Prop :=
  ∃ i, a.take i = b.take i ∧
    ((i = a.length ∧ i < b.length) ∨ ∃ x y, a[i]? = some x ∧ b[i]? = some y ∧ x < y)

/-- An occurrence of the first `n` characters of `s` in `v` at index `i`, not before `pos`. -/
def OccursAt {Ch : Type} (v s : List Ch) (pos n i : Nat) : Prop :=
  pos ≤ i ∧ i + n ≤ v.length ∧ ∀ j, j < n → v[i + j]? = s[j]?

end basic_string_view

/-! ## Auxiliary predicates used in the proofs -/

/-- Bits above `h` are clear and the `k` bits from `h` downwards are set. -/
def Filled (h k y : Nat) : Prop :=
  (∀ i, h < i → y.testBit i = false) ∧ (∀ i, i ≤ h → h < i + k → y.testBit i = true)

/-! # Theorems

## Leading zeros: the smear computes `2 ^ bit_width - 1` -/

theorem Filled.step {h k y : Nat} (hy : Filled h k y) : Filled h (k + k) (y ||| (y >>> k)) := by
  obtain ⟨hhi, hlo⟩ := hy
  refine ⟨fun i hi => ?_, fun i hi hik => ?_⟩
  · simp [Nat.testBit_or, Nat.testBit_shiftRight, hhi i hi, hhi (k + i) (by omega)]
  · simp only [Nat.testBit_or, Nat.testBit_shiftRight, Bool.or_eq_true]
    by_cases hc : h < i + k
    · exact Or.inl (hlo i hi hc)
    · exact Or.inr (hlo (k + i) (by omega) (by omega))

theorem Filled.eq {h k y : Nat} (hy : Filled h k y) (hk : h < k) : y = 2 ^ (h + 1) - 1 := by
  apply Nat.eq_of_testBit_eq
  intro i
  rw [Nat.testBit_two_pow_sub_one]
  by_cases hi : i ≤ h
  · rw [hy.2 i hi (by omega)]; simp; omega
  · rw [hy.1 i (by omega)]; simp; omega

theorem smear32_eq {h x : Nat} (hx : x.testBit h = true)
    (hhi : ∀ i, h < i → x.testBit i = false) (h32 : h < 32) : smear32 x = 2 ^ (h + 1) - 1 := by
  have h1 : Filled h 1 x := ⟨hhi, fun i hi hik => by
    have : i = h := by omega
    subst this; exact hx⟩
  exact (h1.step.step.step.step.step).eq (by omega)

theorem countl_table (n : Nat) (hn : n ≤ 32) :
    countl_mod37.getD ((2 ^ n - 1) % 37) 0 = 32 - n := by
  interval_cases n <;> rfl

theorem testBit_log2 {x : Nat} (hx : x ≠ 0) :
    x.testBit x.log2 = true ∧ ∀ i, x.log2 < i → x.testBit i = false := by
  obtain ⟨i, hi, hhi⟩ := Nat.exists_most_significant_bit hx
  have h1 : 2 ^ i ≤ x := Nat.testBit_implies_ge hi
  have h2 : x < 2 ^ (i + 1) := Nat.lt_pow_two_of_testBit x (fun j hj => hhi j (by omega))
  have h3 : i ≤ x.log2 := (Nat.le_log2 hx).2 h1
  have h4 : x.log2 < i + 1 := (Nat.log2_lt hx).2 h2
  have h5 : x.log2 = i := by omega
  rw [h5]
  exact ⟨hi, hhi⟩

theorem log2_lt_of_lt {x w : Nat} (hx : x ≠ 0) (hw : x < 2 ^ w) : x.log2 < w :=
  (Nat.log2_lt hx).2 hw

theorem countl_impl_u32_zero : countl_impl_u32 0 = 32 := by decide

theorem countl_impl_u32_pos {x : Nat} (hx : x ≠ 0) (hlt : x < 2 ^ 32) :
    countl_impl_u32 x = 31 - (x.log2 : Int) := by
  have hb := testBit_log2 hx
  have hl : x.log2 < 32 := log2_lt_of_lt hx hlt
  unfold countl_impl_u32
  rw [smear32_eq hb.1 hb.2 hl, countl_table _ (by omega)]
  omega

theorem log2_shiftRight {x k : Nat} (hx : x >>> k ≠ 0) : (x >>> k).log2 + k = x.log2 := by
  have hx0 : x ≠ 0 := by rintro rfl; simp at hx
  have h1 := Nat.log2_self_le hx
  have h2 := @Nat.lt_log2_self (x >>> k)
  rw [Nat.shiftRight_eq_div_pow] at h1 h2
  have hp : 0 < 2 ^ k := Nat.two_pow_pos k
  have h3 : 2 ^ ((x / 2 ^ k).log2 + k) ≤ x := by
    rw [Nat.pow_add]; exact (Nat.le_div_iff_mul_le hp).1 h1
  have h4 : x < 2 ^ ((x / 2 ^ k).log2 + 1 + k) := by
    rw [Nat.pow_add]; exact (Nat.div_lt_iff_lt_mul hp).1 h2
  have h5 := (Nat.le_log2 hx0).2 h3
  have h6 := (Nat.log2_lt hx0).2 h4
  rw [Nat.shiftRight_eq_div_pow]
  omega

theorem countl_zero_zero (T : UIntT) : countl_zero T 0 = digits T := by
  cases T <;> decide

theorem countl_zero_pos (T : UIntT) {x : Nat} (hx : x ≠ 0) (hlt : x < 2 ^ digits T) :
    countl_zero T x = (digits T : Int) - 1 - (x.log2 : Int) := by
  cases T
  · have h8 : x < 2 ^ 8 := hlt
    simp only [countl_zero, countl_impl_u8, digits]
    rw [Nat.mod_eq_of_lt h8, Nat.mod_eq_of_lt (by omega), countl_impl_u32_pos hx (by omega)]
    omega
  · have h16 : x < 2 ^ 16 := hlt
    simp only [countl_zero, countl_impl_u16, digits]
    rw [Nat.mod_eq_of_lt h16, Nat.mod_eq_of_lt (by omega), countl_impl_u32_pos hx (by omega)]
    omega
  · have h32 : x < 2 ^ 32 := hlt
    simp only [countl_zero, digits]
    rw [Nat.mod_eq_of_lt h32, countl_impl_u32_pos hx h32]
    omega
  · have h64 : x < 2 ^ 64 := hlt
    simp only [countl_zero, countl_impl_u64, digits]
    rw [Nat.mod_eq_of_lt h64]
    have hs : x >>> 32 < 2 ^ 32 := by
      rw [Nat.shiftRight_eq_div_pow]; omega
    rw [Nat.mod_eq_of_lt hs]
    split
    · rename_i hne
      rw [countl_impl_u32_pos hne hs]
      have := log2_shiftRight hne
      omega
    · rename_i he
      have he0 : x >>> 32 = 0 := by simpa using he
      have hx32 : x < 2 ^ 32 := by
        rw [Nat.shiftRight_eq_div_pow] at he0; omega
      rw [Nat.mod_eq_of_lt hx32, countl_impl_u32_pos hx hx32]
      omega

theorem leadingZeros_eq {W x h : Nat} (hW : h < W) (hb : x.testBit h = true)
    (hhi : ∀ i, h < i → x.testBit i = false) : leadingZeros W x = W - 1 - h := by
  induction W with
  | zero => omega
  | succ W ih =>
    unfold leadingZeros
    by_cases hc : h = W
    · subst hc; simp [hb]
    · rw [hhi W (by omega), ih (by omega)]
      simp; omega

theorem leadingZeros_zero (W : Nat) : leadingZeros W 0 = W := by
  induction W with
  | zero => rfl
  | succ W ih => simp [leadingZeros, ih]

/-- C1: `countl_zero` counts the consecutive zero bits from the most significant bit. -/
theorem countl_zero_spec (T : UIntT) (x : Nat) (hx : x < 2 ^ digits T) :
    countl_zero T x = (leadingZeros (digits T) x : Int) ∧
    (x = 0 → countl_zero T x = (digits T : Int)) ∧
    (x ≠ 0 → x.log2 < digits T ∧ x.testBit x.log2 = true ∧
      (∀ i, x.log2 < i → x.testBit i = false) ∧
      countl_zero T x = (digits T : Int) - 1 - (x.log2 : Int)) ∧
    (x.testBit (digits T - 1) = true → countl_zero T x = 0) ∧
    countl_zero .u32 0x00000001 = 31 := by
  have hpos : x ≠ 0 → x.log2 < digits T ∧ x.testBit x.log2 = true ∧
      (∀ i, x.log2 < i → x.testBit i = false) ∧
      countl_zero T x = (digits T : Int) - 1 - (x.log2 : Int) := fun h0 =>
    ⟨log2_lt_of_lt h0 hx, (testBit_log2 h0).1, (testBit_log2 h0).2, countl_zero_pos T h0 hx⟩
  refine ⟨?_, ?_, hpos, ?_, by decide⟩
  · by_cases h0 : x = 0
    · subst h0; rw [countl_zero_zero, leadingZeros_zero]
    · obtain ⟨hl, hb, hhi, he⟩ := hpos h0
      rw [he, leadingZeros_eq hl hb hhi]
      omega
  · rintro rfl; exact countl_zero_zero T
  · intro htop
    have h0 : x ≠ 0 := by rintro rfl; simp at htop
    obtain ⟨hl, hb, hhi, he⟩ := hpos h0
    have : ¬ x.log2 < digits T - 1 := fun hlt => by
      have := hhi _ hlt; simp [htop] at this
    rw [he]; omega

theorem countl_zero_spec_witness :
    (1 : Nat) < 2 ^ digits .u32 ∧ countl_zero .u32 1 = (leadingZeros (digits .u32) 1 : Int) :=
  ⟨by decide, (countl_zero_spec .u32 1 (by decide)).1⟩


/-! ## Trailing zeros: `-x & x` isolates the lowest set bit -/

theorem toUnsigned_neg_u32 {x : Nat} (hx : x < 2 ^ 32) :
    toUnsigned 32 (negInt (toInt32 x)) = (2 ^ 32 - x) % 2 ^ 32 := by
  unfold toUnsigned negInt toInt32
  norm_num
  omega

theorem mod_two_pow_eq_zero_of_low_bits {x c : Nat} (hlo : ∀ i, i < c → x.testBit i = false) :
    x % 2 ^ c = 0 := by
  apply Nat.eq_of_testBit_eq
  intro i
  rw [Nat.testBit_mod_two_pow, Nat.zero_testBit]
  by_cases hi : i < c
  · simp [hlo i hi]
  · simp [hi]

/-- A number whose lowest set bit is `c` is `2 ^ c` times an odd number. -/
theorem lowest_bit_decomp {x c : Nat} (hc : x.testBit c = true)
    (hlo : ∀ i, i < c → x.testBit i = false) :
    x = 2 ^ c * (2 * (x / 2 ^ c / 2) + 1) := by
  have h0 := mod_two_pow_eq_zero_of_low_bits hlo
  have h1 : x / 2 ^ c % 2 = 1 := by
    rw [Nat.testBit_to_div_mod] at hc
    simpa using hc
  have h2 := Nat.div_add_mod x (2 ^ c)
  have h3 := Nat.div_add_mod (x / 2 ^ c) 2
  rw [h0] at h2
  rw [h1] at h3
  rw [h3]
  omega

theorem testBit_lowest_isolated {x c : Nat} (hc : x.testBit c = true)
    (hlo : ∀ i, i < c → x.testBit i = false) (i : Nat) :
    (!(x - 1).testBit i && x.testBit i) = decide (c = i) := by
  have hd := lowest_bit_decomp hc hlo
  generalize x / 2 ^ c / 2 = m at hd
  have hp : 0 < 2 ^ c := Nat.two_pow_pos c
  have hx1 : x - 1 = 2 ^ c * (2 * m) + (2 ^ c - 1) := by
    rw [hd, Nat.mul_add, Nat.mul_one]; omega
  have hb : (x - 1).testBit i = if i < c then true else (2 * m).testBit (i - c) := by
    rw [hx1, Nat.testBit_mul_pow_two_add _ (by omega)]
    split
    · rename_i h; simp [h]
    · rfl
  have ha : x.testBit i = (decide (i ≥ c) && (2 * m + 1).testBit (i - c)) := by
    rw [hd, Nat.testBit_mul_pow_two]
  rw [ha, hb]
  rcases Nat.lt_trichotomy i c with h | h | h
  · simp [h]; omega
  · subst h; simp; omega
  · obtain ⟨j, hj⟩ : ∃ j, i - c = j + 1 := ⟨i - c - 1, by omega⟩
    have hne : ¬ c = i := by omega
    have hnlt : ¬ i < c := by omega
    have e1 : (2 * m + 1) / 2 = m := by omega
    have e2 : (2 * m) / 2 = m := by omega
    simp [hj, Nat.testBit_succ, hne, hnlt, e1, e2]
    intro h1 _; exact h1

theorem neg_and_self {x c : Nat} (hx : x < 2 ^ 32) (hc : x.testBit c = true)
    (hlo : ∀ i, i < c → x.testBit i = false) :
    ((2 ^ 32 - x) % 2 ^ 32) &&& x = 2 ^ c := by
  have hx0 : x ≠ 0 := by rintro rfl; simp at hc
  have hc32 : c < 32 := by
    have := Nat.testBit_implies_ge hc
    by_contra hcon
    have : 2 ^ 32 ≤ 2 ^ c := Nat.pow_le_pow_right (by decide) (by omega)
    omega
  have e : (2 ^ 32 - x) % 2 ^ 32 = 2 ^ 32 - ((x - 1) + 1) := by
    rw [Nat.mod_eq_of_lt (by omega)]; omega
  rw [e]
  apply Nat.eq_of_testBit_eq
  intro i
  rw [Nat.testBit_and, Nat.testBit_two_pow_sub_succ (by omega), Nat.testBit_two_pow,
    Bool.and_assoc, testBit_lowest_isolated hc hlo]
  by_cases h : c = i
  · subst h; simp [hc32]
  · simp [h]

theorem countr_table (c : Nat) (hc : c < 32) : countr_mod37.getD (2 ^ c % 37) 0 = c := by
  interval_cases c <;> rfl

theorem countr_impl_u32_zero : countr_impl_u32 0 = 32 := by decide

theorem countr_impl_u32_pos {x c : Nat} (hx : x < 2 ^ 32) (hc : x.testBit c = true)
    (hlo : ∀ i, i < c → x.testBit i = false) : countr_impl_u32 x = c := by
  have hc32 : c < 32 := by
    have := Nat.testBit_implies_ge hc
    by_contra hcon
    have : 2 ^ 32 ≤ 2 ^ c := Nat.pow_le_pow_right (by decide) (by omega)
    omega
  unfold countr_impl_u32
  rw [toUnsigned_neg_u32 hx, neg_and_self hx hc hlo, countr_table c hc32]

theorem lowest_bit_lt {x c w : Nat} (hx : x < 2 ^ w) (hc : x.testBit c = true) : c < w := by
  have := Nat.testBit_implies_ge hc
  by_contra hcon
  have : 2 ^ w ≤ 2 ^ c := Nat.pow_le_pow_right (by decide) (by omega)
  omega

theorem countr_zero_zero (T : UIntT) : countr_zero T 0 = digits T := by
  cases T <;> decide

/-- With a sentinel bit at position `w`, the lowest set bit of a non-zero `x < 2 ^ w` is
unchanged. -/
theorem countr_sentinel {x c w : Nat} (hw : w < 32) (hx : x < 2 ^ w) (hc : x.testBit c = true)
    (hlo : ∀ i, i < c → x.testBit i = false) : countr_impl_u32 (x ||| 2 ^ w) = c := by
  have hcw : c < w := lowest_bit_lt hx hc
  have hxw : x < 2 ^ 32 := lt_of_lt_of_le hx (Nat.pow_le_pow_right (by decide) (by omega))
  have hsw : 2 ^ w < 2 ^ 32 := Nat.pow_lt_pow_right (by decide) hw
  apply countr_impl_u32_pos (Nat.or_lt_two_pow hxw hsw)
  · simp [Nat.testBit_or, hc]
  · intro i hi
    have : ¬ w = i := by omega
    simp [Nat.testBit_or, hlo i hi, Nat.testBit_two_pow, this]

theorem countr_zero_pos (T : UIntT) {x c : Nat} (hx : x < 2 ^ digits T)
    (hc : x.testBit c = true) (hlo : ∀ i, i < c → x.testBit i = false) :
    countr_zero T x = (c : Int) := by
  cases T
  · have h8 : x < 2 ^ 8 := hx
    simp only [countr_zero, countr_impl_u8]
    have e : (0x100 : Nat) = 2 ^ 8 := by norm_num
    rw [Nat.mod_eq_of_lt h8, Nat.mod_eq_of_lt (by omega), e]
    exact countr_sentinel (by omega) h8 hc hlo
  · have h16 : x < 2 ^ 16 := hx
    simp only [countr_zero, countr_impl_u16]
    have e : (0x10000 : Nat) = 2 ^ 16 := by norm_num
    rw [Nat.mod_eq_of_lt h16, Nat.mod_eq_of_lt (by omega), e]
    exact countr_sentinel (by omega) h16 hc hlo
  · have h32 : x < 2 ^ 32 := hx
    simp only [countr_zero]
    rw [Nat.mod_eq_of_lt h32]
    exact countr_impl_u32_pos h32 hc hlo
  · have h64 : x < 2 ^ 64 := hx
    simp only [countr_zero, countr_impl_u64]
    rw [Nat.mod_eq_of_lt h64]
    have hs : x >>> 32 < 2 ^ 32 := by
      rw [Nat.shiftRight_eq_div_pow]; omega
    rw [Nat.mod_eq_of_lt hs]
    split
    · rename_i hne
      have hc32 : c < 32 := by
        by_contra hcon
        exact hne (mod_two_pow_eq_zero_of_low_bits (fun i hi => hlo i (by omega)))
      apply countr_impl_u32_pos (Nat.mod_lt _ (by decide))
      · rw [Nat.testBit_mod_two_pow, hc]; simp [hc32]
      · intro i hi
        rw [Nat.testBit_mod_two_pow, hlo i hi]; simp
    · rename_i he
      have he0 : x % 2 ^ 32 = 0 := by simpa using he
      have hc32 : 32 ≤ c := by
        by_contra hcon
        have h1 : (x % 2 ^ 32).testBit c = true := by
          rw [Nat.testBit_mod_two_pow, hc]; simp; omega
        rw [he0] at h1
        simp at h1
      have hr : countr_impl_u32 (x >>> 32) = ((c - 32 : Nat) : Int) := by
        apply countr_impl_u32_pos hs
        · rw [Nat.testBit_shiftRight]
          have : 32 + (c - 32) = c := by omega
          rw [this]; exact hc
        · intro i hi
          rw [Nat.testBit_shiftRight]
          exact hlo _ (by omega)
      rw [hr]
      omega

theorem exists_lowest_bit {x : Nat} (hx : x ≠ 0) :
    ∃ c, x.testBit c = true ∧ ∀ i, i < c → x.testBit i = false := by
  have hex : ∃ i, x.testBit i = true := Nat.ne_zero_implies_bit_true hx
  refine ⟨Nat.find hex, Nat.find_spec hex, fun i hi => ?_⟩
  have := Nat.find_min hex hi
  simpa using this

/-- C2: `countr_zero` is the width for zero, and otherwise the position of the lowest set bit. -/
theorem countr_zero_spec (T : UIntT) (x : Nat) (hx : x < 2 ^ digits T) :
    (x = 0 → countr_zero T x = (digits T : Int)) ∧
    (x ≠ 0 → ∃ c : Nat, countr_zero T x = (c : Int) ∧ c < digits T ∧
      (x >>> c) &&& 1 = 1 ∧ ∀ i, i < c → x.testBit i = false) ∧
    countr_zero .u32 0x80000000 = 31 := by
  refine ⟨?_, fun h0 => ?_, by decide⟩
  · rintro rfl; exact countr_zero_zero T
  · obtain ⟨c, hc, hlo⟩ := exists_lowest_bit h0
    refine ⟨c, countr_zero_pos T hx hc hlo, lowest_bit_lt hx hc, ?_, hlo⟩
    rw [Nat.testBit_to_div_mod] at hc
    rw [Nat.and_one_is_mod, Nat.shiftRight_eq_div_pow]
    simpa using hc

theorem countr_zero_spec_witness :
    (0x80000000 : Nat) < 2 ^ digits .u32 ∧ countr_zero .u32 0x80000000 = 31 :=
  ⟨by decide, (countr_zero_spec .u32 0x80000000 (by decide)).2.2⟩


/-! ## Rotations, bit by bit -/

theorem testBit_eq_false_of_lt {x W i : Nat} (hx : x < 2 ^ W) (hi : W ≤ i) :
    x.testBit i = false :=
  Nat.testBit_lt_two_pow (lt_of_lt_of_le hx (Nat.pow_le_pow_right (by decide) hi))

/-- The bits of `x << l | x >> r` when `l + r` is the width (or both shifts are zero). -/
theorem rot_bits_aux {W x l r i : Nat} (hx : x < 2 ^ W)
    (hlr : (l = 0 ∧ r = 0) ∨ (0 < l ∧ l < W ∧ r = W - l)) :
    ((decide (i ≥ l) && x.testBit (i - l)) || x.testBit (r + i)) =
      x.testBit (if l ≤ i then i - l else i + W - l) := by
  rcases hlr with ⟨rfl, rfl⟩ | ⟨h0, hl, rfl⟩
  · simp
  · by_cases h : l ≤ i
    · have : x.testBit (W - l + i) = false := testBit_eq_false_of_lt hx (by omega)
      simp [h, this]
    · have e : W - l + i = i + W - l := by omega
      simp [h, e]

theorem shift_amounts (T : UIntT) (s : Int) :
    toUnsigned 32 s &&& (digits T - 1) = (s % (digits T : Int)).toNat ∧
    toUnsigned 32 (negInt s) &&& (digits T - 1) = ((-s) % (digits T : Int)).toNat := by
  have e8 : (8 - 1 : Nat) = 2 ^ 3 - 1 := by norm_num
  have e16 : (16 - 1 : Nat) = 2 ^ 4 - 1 := by norm_num
  have e32 : (32 - 1 : Nat) = 2 ^ 5 - 1 := by norm_num
  have e64 : (64 - 1 : Nat) = 2 ^ 6 - 1 := by norm_num
  cases T <;> simp only [digits, e8, e16, e32, e64, Nat.and_pow_two_sub_one_eq_mod] <;>
    unfold toUnsigned negInt toInt32 <;> norm_num <;> omega

theorem testBit_shlT (T : UIntT) (x k i : Nat) (hi : i < digits T) :
    (shlT T x k).testBit i = (decide (i ≥ k) && x.testBit (i - k)) := by
  cases T
  · simp only [shlT, Nat.testBit_shiftLeft]
  · simp only [shlT, Nat.testBit_shiftLeft]
  · have h : i < 32 := hi
    simp only [shlT, Nat.testBit_mod_two_pow, Nat.testBit_shiftLeft, h, decide_True,
      Bool.true_and]
  · have h : i < 64 := hi
    simp only [shlT, Nat.testBit_mod_two_pow, Nat.testBit_shiftLeft, h, decide_True,
      Bool.true_and]

theorem shift_amounts_rel (T : UIntT) (s : Int) :
    ((s % (digits T : Int)).toNat = 0 ∧ ((-s) % (digits T : Int)).toNat = 0) ∨
    (0 < (s % (digits T : Int)).toNat ∧ (s % (digits T : Int)).toNat < digits T ∧
      ((-s) % (digits T : Int)).toNat = digits T - (s % (digits T : Int)).toNat) := by
  cases T <;> simp only [digits] <;> omega

theorem testBit_rotl (T : UIntT) {x : Nat} (s : Int) (hx : x < 2 ^ digits T) {i : Nat}
    (hi : i < digits T) :
    (rotl T x s).testBit i = x.testBit ((((i : Int) - s) % (digits T : Int)).toNat) := by
  obtain ⟨hl, hr⟩ := shift_amounts T s
  have hrel := shift_amounts_rel T s
  simp only [rotl, truncT]
  rw [hl, hr, Nat.testBit_mod_two_pow, Nat.testBit_or, testBit_shlT T _ _ _ hi,
    Nat.testBit_shiftRight, rot_bits_aux hx hrel]
  simp only [hi, decide_True, Bool.true_and]
  congr 1
  cases T <;> simp only [digits] at * <;> split <;> omega

theorem testBit_rotr (T : UIntT) {x : Nat} (s : Int) (hx : x < 2 ^ digits T) {i : Nat}
    (hi : i < digits T) :
    (rotr T x s).testBit i = x.testBit ((((i : Int) + s) % (digits T : Int)).toNat) := by
  obtain ⟨hl, hr⟩ := shift_amounts T s
  have hrel := shift_amounts_rel T (-s)
  rw [neg_neg] at hrel
  simp only [rotr, truncT]
  rw [hl, hr, Nat.testBit_mod_two_pow, Nat.testBit_or, testBit_shlT T _ _ _ hi,
    Nat.testBit_shiftRight, Bool.or_comm, rot_bits_aux hx hrel]
  simp only [hi, decide_True, Bool.true_and]
  congr 1
  cases T <;> simp only [digits] at * <;> split <;> omega

theorem rotl_lt (T : UIntT) (x : Nat) (s : Int) : rotl T x s < 2 ^ digits T :=
  Nat.mod_lt _ (Nat.two_pow_pos _)

theorem rotr_lt (T : UIntT) (x : Nat) (s : Int) : rotr T x s < 2 ^ digits T :=
  Nat.mod_lt _ (Nat.two_pow_pos _)

/-- Two values below `2 ^ W` that agree on the bits `0 .. W-1` are equal. -/
theorem eq_of_low_bits {W a b : Nat} (ha : a < 2 ^ W) (hb : b < 2 ^ W)
    (h : ∀ i, i < W → a.testBit i = b.testBit i) : a = b := by
  apply Nat.eq_of_testBit_eq
  intro i
  by_cases hi : i < W
  · exact h i hi
  · rw [testBit_eq_false_of_lt ha (by omega), testBit_eq_false_of_lt hb (by omega)]

theorem rot_index_lt (T : UIntT) (z : Int) : (z % (digits T : Int)).toNat < digits T := by
  cases T <;> simp only [digits] <;> omega

theorem rot_index_roundtrip (T : UIntT) (s : Int) {i : Nat} (hi : i < digits T) :
    ((((((i : Int) - s) % (digits T : Int)).toNat : Int) + s) % (digits T : Int)).toNat
      = i := by
  cases T <;> simp only [digits] at * <;> omega

theorem rot_index_zero (T : UIntT) {i : Nat} (hi : i < digits T) :
    (((i : Int) - 0) % (digits T : Int)).toNat = i ∧
    (((i : Int) + 0) % (digits T : Int)).toNat = i ∧
    (((i : Int) - (digits T : Int)) % (digits T : Int)).toNat = i ∧
    (((i : Int) + (digits T : Int)) % (digits T : Int)).toNat = i := by
  cases T <;> simp only [digits] at * <;> omega

theorem rot_index_neg (T : UIntT) (s : Int) (i : Nat) :
    (((i : Int) - negInt s) % (digits T : Int)).toNat
      = (((i : Int) + s) % (digits T : Int)).toNat ∧
    (((i : Int) + negInt s) % (digits T : Int)).toNat
      = (((i : Int) - s) % (digits T : Int)).toNat := by
  unfold negInt toInt32
  cases T <;> simp only [digits] <;> norm_num <;> omega

/-- C3: `rotl` and `rotr` rotate the `W` bits of `x` by `s mod W` positions, for every `int`
shift `s`: bit `i` of `rotl(x, s)` is bit `(i - s) mod W` of `x`, and bit `i` of `rotr(x, s)`
is bit `(i + s) mod W` of `x`. -/
theorem rotl_rotr_spec (T : UIntT) (x : Nat) (s : Int) (hx : x < 2 ^ digits T)
    (_hs : IsInt32 s) :
    (∀ i, i < digits T →
      (rotl T x s).testBit i = x.testBit ((((i : Int) - s) % (digits T : Int)).toNat)) ∧
    (∀ i, i < digits T →
      (rotr T x s).testBit i = x.testBit ((((i : Int) + s) % (digits T : Int)).toNat)) ∧
    rotl T x s < 2 ^ digits T ∧ rotr T x s < 2 ^ digits T ∧
    rotl .u32 0x00000001 1 = 0x00000002 ∧ rotl .u32 0x80000000 1 = 0x00000001 :=
  ⟨fun _ hi => testBit_rotl T s hx hi, fun _ hi => testBit_rotr T s hx hi,
    rotl_lt T x s, rotr_lt T x s, by decide, by decide⟩

theorem rotl_rotr_spec_witness :
    (0x80000000 : Nat) < 2 ^ digits .u32 ∧ IsInt32 (-3) ∧
    (rotl .u32 0x80000000 (-3)).testBit 28 = (0x80000000 : Nat).testBit 31 :=
  ⟨by decide, by decide, (rotl_rotr_spec .u32 0x80000000 (-3) (by decide) (by decide)).1 28
    (by decide)⟩

/-- C4: rotation round trip, `rotl(rotr(x, s), s) == x` for every `int` shift `s`. -/
theorem rotl_rotr_roundtrip (T : UIntT) (x : Nat) (s : Int) (hx : x < 2 ^ digits T)
    (_hs : IsInt32 s) : rotl T (rotr T x s) s = x := by
  apply eq_of_low_bits (rotl_lt T _ s) hx
  intro i hi
  rw [testBit_rotl T s (rotr_lt T x s) hi, testBit_rotr T s hx (rot_index_lt T _),
    rot_index_roundtrip T s hi]

theorem rotl_rotr_roundtrip_witness :
    (0xB5 : Nat) < 2 ^ digits .u8 ∧ IsInt32 (-11) ∧
    rotl .u8 (rotr .u8 0xB5 (-11)) (-11) = 0xB5 :=
  ⟨by decide, by decide, rotl_rotr_roundtrip .u8 0xB5 (-11) (by decide) (by decide)⟩

/-- C5: rotating by `0` or by the width `W` is the identity, for `rotl` and for `rotr`. -/
theorem rot_identity (T : UIntT) (x : Nat) (hx : x < 2 ^ digits T) :
    rotl T x 0 = x ∧ rotr T x 0 = x ∧
    rotl T x (digits T : Int) = x ∧ rotr T x (digits T : Int) = x := by
  refine ⟨?_, ?_, ?_, ?_⟩
  · refine eq_of_low_bits (rotl_lt T x _) hx (fun i hi => ?_)
    rw [testBit_rotl T _ hx hi, (rot_index_zero T hi).1]
  · refine eq_of_low_bits (rotr_lt T x _) hx (fun i hi => ?_)
    rw [testBit_rotr T _ hx hi, (rot_index_zero T hi).2.1]
  · refine eq_of_low_bits (rotl_lt T x _) hx (fun i hi => ?_)
    rw [testBit_rotl T _ hx hi, (rot_index_zero T hi).2.2.1]
  · refine eq_of_low_bits (rotr_lt T x _) hx (fun i hi => ?_)
    rw [testBit_rotr T _ hx hi, (rot_index_zero T hi).2.2.2]

theorem rot_identity_witness :
    (0xBEEF : Nat) < 2 ^ digits .u16 ∧
    rotl .u16 0xBEEF 16 = 0xBEEF ∧ rotr .u16 0xBEEF 0 = 0xBEEF :=
  ⟨by decide, (rot_identity .u16 0xBEEF (by decide)).2.2.1,
    (rot_identity .u16 0xBEEF (by decide)).2.1⟩

/-- C6: a negated shift (negation wrapping at `INT_MIN`) reverses the direction:
`rotl(x, -s) == rotr(x, s)` and `rotr(x, -s) == rotl(x, s)`. -/
theorem rot_neg (T : UIntT) (x : Nat) (s : Int) (hx : x < 2 ^ digits T) (_hs : IsInt32 s) :
    rotl T x (negInt s) = rotr T x s ∧ rotr T x (negInt s) = rotl T x s := by
  constructor
  · refine eq_of_low_bits (rotl_lt T x _) (rotr_lt T x _) (fun i hi => ?_)
    rw [testBit_rotl T _ hx hi, testBit_rotr T _ hx hi, (rot_index_neg T s i).1]
  · refine eq_of_low_bits (rotr_lt T x _) (rotl_lt T x _) (fun i hi => ?_)
    rw [testBit_rotl T _ hx hi, testBit_rotr T _ hx hi, (rot_index_neg T s i).2]

theorem rot_neg_witness :
    (0xB5 : Nat) < 2 ^ digits .u8 ∧ IsInt32 3 ∧ negInt 3 = -3 ∧
    (rotl .u8 0xB5 (negInt 3) = rotr .u8 0xB5 3 ∧ rotr .u8 0xB5 (negInt 3) = rotl .u8 0xB5 3) ∧
    rotr .u8 0xB5 3 = 0xB6 ∧ rotl .u8 0xB5 3 = 0xAD :=
  ⟨by decide, by decide, by decide, rot_neg .u8 0xB5 3 (by decide) (by decide),
    by decide, by decide⟩

/-! ## Integral powers of 2: `has_single_bit`, `bit_width`, `bit_floor`, `bit_ceil` -/

theorem subOne_eq (T : UIntT) {x : Nat} (hx0 : x ≠ 0) (hx : x < 2 ^ digits T) :
    subOne T x = x - 1 := by
  unfold subOne
  cases T <;> simp only [digits, promotedBits] at * <;> omega

theorem two_pow_and_pred (k : Nat) : 2 ^ k &&& (2 ^ k - 1) = 0 := by
  apply Nat.eq_of_testBit_eq
  intro i
  rw [Nat.testBit_and, Nat.testBit_two_pow, Nat.testBit_two_pow_sub_one, Nat.zero_testBit]
  by_cases h : k = i
  · subst h; simp
  · simp [h]

theorem and_pred_eq_zero_iff {x : Nat} (hx0 : x ≠ 0) :
    x &&& (x - 1) = 0 ↔ ∃ k, x = 2 ^ k := by
  constructor
  · intro h
    obtain ⟨c, hc, hlo⟩ := exists_lowest_bit hx0
    refine ⟨c, Nat.eq_of_testBit_eq (fun i => ?_)⟩
    have hiso := testBit_lowest_isolated hc hlo i
    have hand : (x.testBit i && (x - 1).testBit i) = false := by
      rw [← Nat.testBit_and, h, Nat.zero_testBit]
    rw [Nat.testBit_two_pow, ← hiso]
    cases hxi : x.testBit i <;> cases hpi : (x - 1).testBit i <;> simp_all
  · rintro ⟨k, rfl⟩
    exact two_pow_and_pred k

theorem two_pow_lt_iff {k W : Nat} : 2 ^ k < 2 ^ W ↔ k < W :=
  Nat.pow_lt_pow_iff_right (by decide)

theorem has_single_bit_iff (T : UIntT) {x : Nat} (hx : x < 2 ^ digits T) :
    has_single_bit T x = true ↔ ∃ k, k < digits T ∧ x = 2 ^ k := by
  by_cases hx0 : x = 0
  · subst hx0
    constructor
    · intro h; simp [has_single_bit] at h
    · rintro ⟨k, _, hk⟩
      have := Nat.two_pow_pos k
      omega
  · simp only [has_single_bit, subOne_eq T hx0 hx, Bool.and_eq_true, bne_iff_ne, ne_eq,
      beq_iff_eq]
    rw [and_pred_eq_zero_iff hx0]
    constructor
    · rintro ⟨_, k, rfl⟩
      exact ⟨k, two_pow_lt_iff.1 hx, rfl⟩
    · rintro ⟨k, _, rfl⟩
      exact ⟨hx0, k, rfl⟩

theorem popcountRef_eq_zero_iff (W : Nat) :
    ∀ x, x < 2 ^ W → (popcountRef W x = 0 ↔ x = 0) := by
  induction W with
  | zero => intro x hx; simp [popcountRef]; omega
  | succ W ih =>
    intro x hx
    have h2 : x / 2 < 2 ^ W := by rw [Nat.pow_succ] at hx; omega
    have := ih _ h2
    simp only [popcountRef]
    omega

theorem popcountRef_eq_one_iff (W : Nat) :
    ∀ x, x < 2 ^ W → (popcountRef W x = 1 ↔ ∃ k, k < W ∧ x = 2 ^ k) := by
  induction W with
  | zero =>
    intro x hx
    simp [popcountRef]
  | succ W ih =>
    intro x hx
    have h2 : x / 2 < 2 ^ W := by rw [Nat.pow_succ] at hx; omega
    have hz := popcountRef_eq_zero_iff W _ h2
    have ho := ih _ h2
    simp only [popcountRef]
    rcases Nat.mod_two_eq_zero_or_one x with h | h
    · rw [h, Nat.zero_add, ho]
      constructor
      · rintro ⟨k, hk, he⟩
        exact ⟨k + 1, by omega, by rw [Nat.pow_succ]; omega⟩
      · rintro ⟨k, hk, he⟩
        cases k with
        | zero => simp at he; omega
        | succ k => exact ⟨k, by omega, by rw [Nat.pow_succ] at he; omega⟩
    · constructor
      · intro hp
        have : x / 2 = 0 := hz.1 (by omega)
        exact ⟨0, by omega, by simp; omega⟩
      · rintro ⟨k, hk, he⟩
        cases k with
        | zero =>
          have : x / 2 = 0 := by simp at he; omega
          have := hz.2 this
          omega
        | succ k => rw [Nat.pow_succ] at he; omega

/-- C7: `has_single_bit( x )` holds exactly when one bit of `x` is set, that is, when the
reference population count of `x` is 1, or equivalently `x = 2 ^ k` for some `k < W`. -/
theorem has_single_bit_spec (T : UIntT) (x : Nat) (hx : x < 2 ^ digits T) :
    (has_single_bit T x = true ↔ popcountRef (digits T) x = 1) ∧
    (has_single_bit T x = true ↔ ∃ k, k < digits T ∧ x = 2 ^ k) ∧
    has_single_bit T 0 = false ∧
    has_single_bit .u32 64 = true ∧ has_single_bit .u32 0 = false := by
  refine ⟨?_, has_single_bit_iff T hx, by cases T <;> decide, by decide, by decide⟩
  rw [has_single_bit_iff T hx, popcountRef_eq_one_iff _ _ hx]

theorem has_single_bit_spec_witness :
    (64 : Nat) < 2 ^ digits .u32 ∧
    (has_single_bit .u32 64 = true ↔ popcountRef (digits .u32) 64 = 1) :=
  ⟨by decide, (has_single_bit_spec .u32 64 (by decide)).1⟩

theorem digits_lt_two_pow (T : UIntT) : digits T < 2 ^ digits T := by
  cases T <;> decide

theorem bit_width_zero (T : UIntT) : bit_width T 0 = 0 := by
  cases T <;> decide

theorem bit_width_pos (T : UIntT) {x : Nat} (hx0 : x ≠ 0) (hx : x < 2 ^ digits T) :
    bit_width T x = x.log2 + 1 := by
  have hl := log2_lt_of_lt hx0 hx
  have hd := digits_lt_two_pow T
  unfold bit_width castT toUnsigned
  rw [countl_zero_pos T hx0 hx]
  have e : (digits T : Int) - ((digits T : Int) - 1 - (x.log2 : Int))
      = ((x.log2 + 1 : Nat) : Int) := by
    push_cast; ring
  rw [e]
  have hp : ((2 : Int) ^ digits T) = ((2 ^ digits T : Nat) : Int) := by push_cast; rfl
  rw [hp, ← Int.natCast_mod, Int.toNat_natCast, Nat.mod_eq_of_lt (by omega)]

/-- C8: `bit_width( x )` is the number of bits needed to represent `x`: `0` for `x = 0`,
otherwise the unique `n` in `1..W` with `2 ^ (n - 1) ≤ x < 2 ^ n`; and
`countl_zero( x ) = W - bit_width( x )` for every `x`. -/
theorem bit_width_spec (T : UIntT) (x : Nat) (hx : x < 2 ^ digits T) :
    (x = 0 → bit_width T x = 0) ∧
    (x ≠ 0 → 1 ≤ bit_width T x ∧ bit_width T x ≤ digits T ∧
      2 ^ (bit_width T x - 1) ≤ x ∧ x < 2 ^ bit_width T x ∧
      ∀ n, 1 ≤ n → 2 ^ (n - 1) ≤ x → x < 2 ^ n → n = bit_width T x) ∧
    countl_zero T x = (digits T : Int) - (bit_width T x : Int) := by
  refine ⟨?_, fun hx0 => ?_, ?_⟩
  · rintro rfl; exact bit_width_zero T
  · have hw := bit_width_pos T hx0 hx
    have hl := log2_lt_of_lt hx0 hx
    rw [hw]
    refine ⟨by omega, by omega, ?_, Nat.lt_log2_self, fun n hn h1 h2 => ?_⟩
    · rw [Nat.add_sub_cancel]; exact Nat.log2_self_le hx0
    · have a := (Nat.le_log2 hx0).2 h1
      have b := (Nat.log2_lt hx0).2 h2
      omega
  · by_cases hx0 : x = 0
    · subst hx0; rw [bit_width_zero, countl_zero_zero]; simp
    · rw [bit_width_pos T hx0 hx, countl_zero_pos T hx0 hx]
      push_cast; ring

theorem bit_width_spec_witness :
    (17 : Nat) < 2 ^ digits .u8 ∧
    countl_zero .u8 17 = (digits .u8 : Int) - (bit_width .u8 17 : Int) :=
  ⟨by decide, (bit_width_spec .u8 17 (by decide)).2.2⟩

theorem shlT_one (T : UIntT) {k : Nat} (hk : k < digits T) : truncT T (shlT T 1 k) = 2 ^ k := by
  have h1 : 2 ^ k < 2 ^ digits T := two_pow_lt_iff.2 hk
  cases T <;> simp only [truncT, shlT, digits, Nat.one_shiftLeft] at * <;>
    simp only [Nat.mod_eq_of_lt h1]

theorem bit_floor_pos (T : UIntT) {x : Nat} (hx0 : x ≠ 0) (hx : x < 2 ^ digits T) :
    bit_floor T x = 2 ^ x.log2 := by
  unfold bit_floor
  rw [if_neg hx0, bit_width_pos T hx0 hx, Nat.add_sub_cancel, shlT_one T (log2_lt_of_lt hx0 hx)]

/-- C9: `bit_floor( 0 ) = 0`, and for `x ≠ 0` the result is the largest power of two not
exceeding `x`: it has exactly one bit set and `bit_floor( x ) ≤ x < bit_floor( x ) * 2`
over the natural numbers. -/
theorem bit_floor_spec (T : UIntT) (x : Nat) (hx : x < 2 ^ digits T) :
    (x = 0 → bit_floor T x = 0) ∧
    (x ≠ 0 → (∃ k, k < digits T ∧ bit_floor T x = 2 ^ k) ∧
      has_single_bit T (bit_floor T x) = true ∧
      popcountRef (digits T) (bit_floor T x) = 1 ∧
      bit_floor T x ≤ x ∧ x < bit_floor T x * 2 ∧
      ∀ k, 2 ^ k ≤ x → 2 ^ k ≤ bit_floor T x) ∧
    bit_floor .u32 17 = 16 := by
  refine ⟨?_, fun hx0 => ?_, by decide⟩
  · rintro rfl; rfl
  · have hf := bit_floor_pos T hx0 hx
    have hl := log2_lt_of_lt hx0 hx
    have hlt : bit_floor T x < 2 ^ digits T := by rw [hf]; exact two_pow_lt_iff.2 hl
    have hex : ∃ k, k < digits T ∧ bit_floor T x = 2 ^ k := ⟨_, hl, hf⟩
    refine ⟨hex, (has_single_bit_iff T hlt).2 hex, (popcountRef_eq_one_iff _ _ hlt).2 hex, ?_, ?_,
      fun k hk => ?_⟩
    · rw [hf]; exact Nat.log2_self_le hx0
    · rw [hf, ← Nat.pow_succ]; exact Nat.lt_log2_self
    · rw [hf]
      exact Nat.pow_le_pow_right (by decide) ((Nat.le_log2 hx0).2 hk)

theorem bit_floor_spec_witness :
    (17 : Nat) < 2 ^ digits .u32 ∧ (17 : Nat) ≠ 0 ∧
    bit_floor .u32 17 ≤ 17 ∧ 17 < bit_floor .u32 17 * 2 :=
  ⟨by decide, by decide,
    ((bit_floor_spec .u32 17 (by decide)).2.1 (by decide)).2.2.2.1,
    ((bit_floor_spec .u32 17 (by decide)).2.1 (by decide)).2.2.2.2.1⟩

theorem smear64_eq {h x : Nat} (hx : x.testBit h = true)
    (hhi : ∀ i, h < i → x.testBit i = false) (h64 : h < 64) : smear64 x = 2 ^ (h + 1) - 1 := by
  have h1 : Filled h 1 x := ⟨hhi, fun i hi hik => by
    have : i = h := by omega
    subst this; exact hx⟩
  exact (h1.step.step.step.step.step.step).eq (by omega)

/-- The smear of `x` is `2 ^ n - 1` for the least `n` with `x < 2 ^ n`. -/
theorem smear_least (smear : Nat → Nat) (B : Nat) (h0 : smear 0 = 0)
    (hs : ∀ h x, x.testBit h = true → (∀ i, h < i → x.testBit i = false) → h < B →
      smear x = 2 ^ (h + 1) - 1)
    {x : Nat} (hx : x < 2 ^ B) :
    ∃ n, smear x = 2 ^ n - 1 ∧ x < 2 ^ n ∧ ∀ w, x < 2 ^ w → n ≤ w := by
  by_cases hx0 : x = 0
  · subst hx0
    exact ⟨0, by simp [h0], by simp, fun w _ => Nat.zero_le w⟩
  · have hb := testBit_log2 hx0
    refine ⟨x.log2 + 1, hs _ _ hb.1 hb.2 (log2_lt_of_lt hx0 hx), Nat.lt_log2_self,
      fun w hw => ?_⟩
    have := log2_lt_of_lt hx0 hw
    omega

theorem smear32_least {x : Nat} (hx : x < 2 ^ 32) :
    ∃ n, smear32 x = 2 ^ n - 1 ∧ x < 2 ^ n ∧ ∀ w, x < 2 ^ w → n ≤ w :=
  smear_least smear32 32 (by decide) (fun _ _ a b c => smear32_eq a b c) hx

theorem smear64_least {x : Nat} (hx : x < 2 ^ 64) :
    ∃ n, smear64 x = 2 ^ n - 1 ∧ x < 2 ^ n ∧ ∀ w, x < 2 ^ w → n ≤ w :=
  smear_least smear64 64 (by decide) (fun _ _ a b c => smear64_eq a b c) hx

/-- Inside the precondition range the result of `bit_ceil` is `2 ^ n` for the least `n`
with `x ≤ 2 ^ n`. -/
theorem bit_ceil_pos (T : UIntT) {x : Nat} (hx0 : x ≠ 0) (hpre : x ≤ 2 ^ (digits T - 1)) :
    ∃ n, n < digits T ∧ bit_ceil T x = 2 ^ n ∧ x ≤ 2 ^ n ∧ ∀ w, x ≤ 2 ^ w → n ≤ w := by
  have hd : 1 ≤ digits T ∧ digits T ≤ promotedBits T ∧ promotedBits T ≤ 64 := by
    cases T <;> decide
  have hy : x - 1 < 2 ^ (digits T - 1) := by omega
  have mono : ∀ {a b : Nat}, a ≤ b → 2 ^ a ≤ 2 ^ b :=
    fun h => Nat.pow_le_pow_right (by decide) h
  have key : ∀ (smear : Nat → Nat) (P : Nat), digits T ≤ P →
      (∃ n, smear (x - 1) = 2 ^ n - 1 ∧ x - 1 < 2 ^ n ∧ ∀ w, x - 1 < 2 ^ w → n ≤ w) →
      ∃ n, n < digits T ∧ ((if x = 0 then 0 else (smear (x - 1) + 1) % 2 ^ P) % 2 ^ digits T
        = 2 ^ n) ∧ x ≤ 2 ^ n ∧ ∀ w, x ≤ 2 ^ w → n ≤ w := by
    rintro smear P hP ⟨n, hn, hlt, hmin⟩
    have hnW : n ≤ digits T - 1 := hmin _ hy
    have hpn := Nat.two_pow_pos n
    have h1 : 2 ^ n < 2 ^ digits T := two_pow_lt_iff.2 (by omega)
    have h2 : 2 ^ n < 2 ^ P := lt_of_lt_of_le h1 (mono hP)
    refine ⟨n, by omega, ?_, by omega, fun w hw => hmin w (by omega)⟩
    rw [if_neg hx0, hn, Nat.sub_add_cancel hpn, Nat.mod_eq_of_lt h2, Nat.mod_eq_of_lt h1]
  cases T
  · have hx32 : x < 2 ^ 32 := lt_of_le_of_lt hpre (by decide)
    have := key smear32 32 (by decide) (smear32_least (by omega))
    simpa only [bit_ceil, truncT, bit_ceil_impl_u32, Nat.mod_eq_of_lt hx32] using this
  · have hx32 : x < 2 ^ 32 := lt_of_le_of_lt hpre (by decide)
    have := key smear32 32 (by decide) (smear32_least (by omega))
    simpa only [bit_ceil, truncT, bit_ceil_impl_u32, Nat.mod_eq_of_lt hx32] using this
  · have hx32 : x < 2 ^ 32 := lt_of_le_of_lt hpre (by decide)
    have := key smear32 32 (by decide) (smear32_least (by omega))
    simpa only [bit_ceil, truncT, bit_ceil_impl_u32, Nat.mod_eq_of_lt hx32] using this
  · have hx64 : x < 2 ^ 64 := lt_of_le_of_lt hpre (by decide)
    have := key smear64 64 (by decide) (smear64_least (by omega))
    simpa only [bit_ceil, truncT, bit_ceil_impl_u64, Nat.mod_eq_of_lt hx64] using this

theorem bit_ceil_zero (T : UIntT) : bit_ceil T 0 = 0 := by
  cases T <;> decide

/-- C10: inside the precondition range `x ≤ 2 ^ (W - 1)`, `bit_ceil( 0 ) = 0` and for `x ≠ 0`
the result is the smallest power of two not less than `x`: it has exactly one bit set,
`bit_ceil( x ) ≥ x` and `bit_ceil( x ) / 2 < x`; and `bit_ceil( x ) = x` whenever
`has_single_bit( x )`. -/
theorem bit_ceil_spec (T : UIntT) (x : Nat) (hpre : x ≤ 2 ^ (digits T - 1)) :
    (x = 0 → bit_ceil T x = 0) ∧
    (x ≠ 0 → (∃ k, k < digits T ∧ bit_ceil T x = 2 ^ k) ∧
      has_single_bit T (bit_ceil T x) = true ∧
      popcountRef (digits T) (bit_ceil T x) = 1 ∧
      x ≤ bit_ceil T x ∧ bit_ceil T x / 2 < x ∧
      ∀ k, x ≤ 2 ^ k → bit_ceil T x ≤ 2 ^ k) ∧
    (has_single_bit T x = true → bit_ceil T x = x) ∧
    bit_ceil .u32 17 = 32 := by
  have hx : x < 2 ^ digits T :=
    lt_of_le_of_lt hpre (two_pow_lt_iff.2 (by cases T <;> decide))
  refine ⟨?_, fun hx0 => ?_, fun hsb => ?_, by decide⟩
  · rintro rfl; exact bit_ceil_zero T
  · obtain ⟨n, hn, he, hle, hmin⟩ := bit_ceil_pos T hx0 hpre
    have hlt : bit_ceil T x < 2 ^ digits T := by rw [he]; exact two_pow_lt_iff.2 hn
    have hex : ∃ k, k < digits T ∧ bit_ceil T x = 2 ^ k := ⟨n, hn, he⟩
    refine ⟨hex, (has_single_bit_iff T hlt).2 hex, (popcountRef_eq_one_iff _ _ hlt).2 hex, ?_, ?_,
      fun k hk => ?_⟩
    · rw [he]; exact hle
    · rw [he]
      cases n with
      | zero => simp; omega
      | succ m =>
        rw [Nat.pow_succ, Nat.mul_div_cancel _ (by decide)]
        by_contra hcon
        have := hmin m (by omega)
        omega
    · rw [he]; exact Nat.pow_le_pow_right (by decide) (hmin k hk)
  · obtain ⟨k, _, rfl⟩ := (has_single_bit_iff T hx).1 hsb
    have hx0 : 2 ^ k ≠ 0 := (Nat.two_pow_pos k).ne.symm
    obtain ⟨n, _, he, hle, hmin⟩ := bit_ceil_pos T hx0 hpre
    have h1 : n ≤ k := hmin k (Nat.le_refl _)
    have h2 : 2 ^ n ≤ 2 ^ k := Nat.pow_le_pow_right (by decide) h1
    rw [he]; omega

theorem bit_ceil_spec_witness :
    (17 : Nat) ≤ 2 ^ (digits .u32 - 1) ∧ (17 : Nat) ≠ 0 ∧
    17 ≤ bit_ceil .u32 17 ∧ bit_ceil .u32 17 / 2 < 17 :=
  ⟨by decide, by decide,
    ((bit_ceil_spec .u32 17 (by decide)).2.1 (by decide)).2.2.2.1,
    ((bit_ceil_spec .u32 17 (by decide)).2.1 (by decide)).2.2.2.2.1⟩

/-! ## Counting ones -/

theorem complT_eq (T : UIntT) {x : Nat} (hx : x < 2 ^ digits T) :
    complT T x = 2 ^ digits T - (x + 1) := by
  unfold complT castT toUnsigned
  cases T <;> simp only [digits] at * <;> norm_num <;> omega

theorem complT_lt (T : UIntT) {x : Nat} (hx : x < 2 ^ digits T) : complT T x < 2 ^ digits T := by
  rw [complT_eq T hx]
  have := Nat.two_pow_pos (digits T)
  omega

theorem testBit_complT (T : UIntT) {x : Nat} (hx : x < 2 ^ digits T) {i : Nat}
    (hi : i < digits T) : (complT T x).testBit i = !x.testBit i := by
  rw [complT_eq T hx, Nat.testBit_two_pow_sub_succ hx]
  simp [hi]

theorem countl_zero_eq_leadingZeros (T : UIntT) {x : Nat} (hx : x < 2 ^ digits T) :
    countl_zero T x = (leadingZeros (digits T) x : Int) := by
  by_cases h0 : x = 0
  · subst h0; rw [countl_zero_zero, leadingZeros_zero]
  · have hb := testBit_log2 h0
    have hl := log2_lt_of_lt h0 hx
    rw [countl_zero_pos T h0 hx, leadingZeros_eq hl hb.1 hb.2]
    omega

theorem leadingZeros_compl {x y : Nat} (W : Nat)
    (h : ∀ i, i < W → y.testBit i = !x.testBit i) : leadingZeros W y = leadingOnes W x := by
  induction W with
  | zero => rfl
  | succ W ih =>
    have hW := h W (Nat.lt_succ_self W)
    have := ih (fun i hi => h i (Nat.lt_succ_of_lt hi))
    simp only [leadingZeros, leadingOnes, hW, this]
    cases x.testBit W <;> simp

/-- C11: `countl_one( x )` is the number of consecutive one bits of `x` from the most
significant bit, which is `countl_zero` of the `W`-bit complement of `x`; it is `W` for the
all-ones value and `0` for `0`. -/
theorem countl_one_spec (T : UIntT) (x : Nat) (hx : x < 2 ^ digits T) :
    countl_one T x = (leadingOnes (digits T) x : Int) ∧
    countl_one T x = countl_zero T (2 ^ digits T - 1 - x) ∧
    countl_one T (2 ^ digits T - 1) = (digits T : Int) ∧
    countl_one T 0 = 0 := by
  refine ⟨?_, ?_, by cases T <;> decide, by cases T <;> decide⟩
  · unfold countl_one
    rw [countl_zero_eq_leadingZeros T (complT_lt T hx),
      leadingZeros_compl (digits T) (fun i hi => testBit_complT T hx hi)]
  · unfold countl_one
    rw [complT_eq T hx, Nat.sub_sub, Nat.add_comm]

theorem countl_one_spec_witness :
    (0xF0 : Nat) < 2 ^ digits .u8 ∧ countl_one .u8 0xF0 = (leadingOnes (digits .u8) 0xF0 : Int) :=
  ⟨by decide, (countl_one_spec .u8 0xF0 (by decide)).1⟩

theorem trailingOnes_eq (W : Nat) : ∀ (x c : Nat), c ≤ W → (∀ i, i < c → x.testBit i = true) →
    (c < W → x.testBit c = false) → trailingOnes W x = c := by
  induction W with
  | zero => intro x c hc _ _; simp [trailingOnes]; omega
  | succ W ih =>
    intro x c hc hlo hstop
    cases c with
    | zero =>
      have h0 := hstop (Nat.succ_pos W)
      rw [Nat.testBit_zero] at h0
      have : ¬ x % 2 = 1 := by simpa using h0
      simp [trailingOnes, this]
    | succ c =>
      have h0 := hlo 0 (Nat.succ_pos c)
      rw [Nat.testBit_zero] at h0
      have h1 : x % 2 = 1 := by simpa using h0
      have := ih (x / 2) c (by omega)
        (fun i hi => by rw [← Nat.testBit_succ]; exact hlo (i + 1) (by omega))
        (fun hlt => by rw [← Nat.testBit_succ]; exact hstop (by omega))
      simp [trailingOnes, h1, this]

/-- The position of the lowest clear bit of `x` (or `W` when there is none) is what
`countr_one` returns. -/
theorem countr_one_pos (T : UIntT) {x : Nat} (hx : x < 2 ^ digits T) :
    ∃ c : Nat, c ≤ digits T ∧ countr_one T x = (c : Int) ∧
      (∀ i, i < c → x.testBit i = true) ∧ (c < digits T → x.testBit c = false) := by
  have hy := complT_lt T hx
  by_cases h0 : complT T x = 0
  · refine ⟨digits T, Nat.le_refl _, ?_, fun i hi => ?_, fun h => absurd h (Nat.lt_irrefl _)⟩
    · unfold countr_one; rw [h0, countr_zero_zero]
    · have := testBit_complT T hx hi
      rw [h0, Nat.zero_testBit] at this
      cases hb : x.testBit i
      · rw [hb] at this; simp at this
      · rfl
  · obtain ⟨c, hc, hlo⟩ := exists_lowest_bit h0
    have hcW := lowest_bit_lt hy hc
    refine ⟨c, Nat.le_of_lt hcW, countr_zero_pos T hy hc hlo, fun i hi => ?_, fun _ => ?_⟩
    · have := hlo i hi
      rw [testBit_complT T hx (by omega)] at this
      simpa using this
    · rw [testBit_complT T hx hcW] at hc
      simpa using hc

/-- C12: `countr_one( x )` is the number of consecutive one bits of `x` from the least
significant bit, which is `countr_zero` of the `W`-bit complement of `x`; it is `W` for the
all-ones value and `0` for `0`. -/
theorem countr_one_spec (T : UIntT) (x : Nat) (hx : x < 2 ^ digits T) :
    countr_one T x = (trailingOnes (digits T) x : Int) ∧
    countr_one T x = countr_zero T (2 ^ digits T - 1 - x) ∧
    (∃ c : Nat, c ≤ digits T ∧ countr_one T x = (c : Int) ∧
      (∀ i, i < c → x.testBit i = true) ∧ (c < digits T → x.testBit c = false)) ∧
    countr_one T (2 ^ digits T - 1) = (digits T : Int) ∧
    countr_one T 0 = 0 := by
  refine ⟨?_, ?_, countr_one_pos T hx, by cases T <;> decide, by cases T <;> decide⟩
  · obtain ⟨c, hc, he, hlo, hstop⟩ := countr_one_pos T hx
    rw [he, trailingOnes_eq _ x c hc hlo hstop]
  · unfold countr_one
    rw [complT_eq T hx, Nat.sub_sub, Nat.add_comm]

theorem countr_one_spec_witness :
    (0x0F : Nat) < 2 ^ digits .u8 ∧ countr_one .u8 0x0F = (trailingOnes (digits .u8) 0x0F : Int) :=
  ⟨by decide, (countr_one_spec .u8 0x0F (by decide)).1⟩

/-! ## Population count: the bit-clearing loop counts the set bits -/

theorem popcountRef_zero (W : Nat) : popcountRef W 0 = 0 := by
  induction W with
  | zero => rfl
  | succ W ih => simp [popcountRef, ih]

theorem popcountRef_le (W : Nat) : ∀ x, popcountRef W x ≤ W := by
  induction W with
  | zero => intro x; simp [popcountRef]
  | succ W ih =>
    intro x
    have := ih (x / 2)
    simp only [popcountRef]
    omega

/-- A width above the value's own adds nothing to the reference count. -/
theorem popcountRef_succ_width (W : Nat) :
    ∀ x, x < 2 ^ W → popcountRef (W + 1) x = popcountRef W x := by
  induction W with
  | zero =>
    intro x hx
    have : x = 0 := by omega
    subst this; rfl
  | succ W ih =>
    intro x hx
    have h2 : x / 2 < 2 ^ W := by rw [Nat.pow_succ] at hx; omega
    have := ih _ h2
    rw [popcountRef, this, popcountRef]

theorem and_pred_mod_two (x : Nat) : (x &&& (x - 1)) % 2 = 0 := by
  rcases Nat.mod_two_eq_zero_or_one (x &&& (x - 1)) with h | h
  · exact h
  · rw [Nat.and_mod_two_eq_one] at h
    omega

/-- Clearing the lowest set bit lowers the reference count by one. -/
theorem popcountRef_clear_lowest (W : Nat) :
    ∀ x, x ≠ 0 → x < 2 ^ W → popcountRef W (x &&& (x - 1)) + 1 = popcountRef W x := by
  induction W with
  | zero => intro x h0 hx; omega
  | succ W ih =>
    intro x h0 hx
    have h2 : x / 2 < 2 ^ W := by rw [Nat.pow_succ] at hx; omega
    simp only [popcountRef]
    rw [and_pred_mod_two, Nat.and_div_two]
    rcases Nat.mod_two_eq_zero_or_one x with h | h
    · have e : (x - 1) / 2 = x / 2 - 1 := by omega
      have := ih (x / 2) (by omega) h2
      rw [e, h]
      omega
    · have e : (x - 1) / 2 = x / 2 := by omega
      rw [e, h, Nat.and_self]
      omega

theorem popcount_loop_eq (W : Nat) : ∀ (rounds x : Nat), x < 2 ^ W → popcountRef W x ≤ rounds →
    popcount_loop rounds x = popcountRef W x := by
  intro rounds
  induction rounds with
  | zero => intro x _ h; simp only [popcount_loop]; omega
  | succ rounds ih =>
    intro x hx h
    by_cases h0 : x = 0
    · subst h0; simp [popcount_loop, popcountRef_zero]
    · have hc := popcountRef_clear_lowest W x h0 hx
      have hlt : x &&& (x - 1) < 2 ^ W := lt_of_le_of_lt Nat.and_le_left hx
      simp only [popcount_loop, if_neg h0]
      rw [ih _ hlt (by omega)]
      exact hc

theorem popcount_eq (T : UIntT) {x : Nat} (hx : x < 2 ^ digits T) :
    popcount T x = (popcountRef (digits T) x : Int) := by
  unfold popcount
  rw [Nat.mod_eq_of_lt hx, popcount_loop_eq (digits T) _ x hx (popcountRef_le _ _)]

/-- C13: `popcount( x )` is the number of set bits of `x`: `popcount( 0 ) = 0`,
`popcount( all-ones ) = W` and `popcount( x ) = popcount( x >> 1 ) + ( x & 1 )`. -/
theorem popcount_spec (T : UIntT) (x : Nat) (hx : x < 2 ^ digits T) :
    popcount T x = (popcountRef (digits T) x : Int) ∧
    popcount T 0 = 0 ∧
    popcount T (2 ^ digits T - 1) = (digits T : Int) ∧
    popcount T x = popcount T (x >>> 1) + ((x &&& 1 : Nat) : Int) ∧
    popcount .u32 0xFFFFFFFF = 32 := by
  refine ⟨popcount_eq T hx, by cases T <;> decide, by cases T <;> decide, ?_, by decide⟩
  have hd : digits T = (digits T - 1) + 1 := by cases T <;> decide
  have hs : x >>> 1 < 2 ^ (digits T - 1) := by
    rw [Nat.shiftRight_eq_div_pow]
    rw [hd, Nat.pow_succ] at hx
    omega
  have hs2 : x >>> 1 < 2 ^ digits T :=
    lt_of_lt_of_le hs (Nat.pow_le_pow_right (by decide) (Nat.sub_le _ _))
  rw [popcount_eq T hx, popcount_eq T hs2, Nat.and_one_is_mod]
  have e1 : popcountRef (digits T) x = x % 2 + popcountRef (digits T - 1) (x / 2) := by
    conv_lhs => rw [hd]
    rfl
  have e2 : popcountRef (digits T) (x >>> 1) = popcountRef (digits T - 1) (x >>> 1) := by
    conv_lhs => rw [hd]
    exact popcountRef_succ_width _ _ hs
  have e3 : x >>> 1 = x / 2 := by rw [Nat.shiftRight_eq_div_pow, Nat.pow_one]
  rw [e1, e2, e3]
  push_cast
  ring

theorem popcount_spec_witness :
    (0xFFFFFFFF : Nat) < 2 ^ digits .u32 ∧
    popcount .u32 0xFFFFFFFF = (popcountRef (digits .u32) 0xFFFFFFFF : Int) :=
  ⟨by decide, (popcount_spec .u32 0xFFFFFFFF (by decide)).1⟩

/-! ## The two lookup tables -/

theorem two_pow_mod37_ne_zero (k : Nat) (hk : k < 32) : 2 ^ k % 37 ≠ 0 := by
  interval_cases k <;> decide

theorem smear32_eq_bit_width {x : Nat} (hx : x < 2 ^ 32) :
    smear32 x = 2 ^ bit_width .u32 x - 1 := by
  by_cases h0 : x = 0
  · subst h0; decide
  · have hb := testBit_log2 h0
    rw [bit_width_pos .u32 h0 hx, smear32_eq hb.1 hb.2 (log2_lt_of_lt h0 hx)]

/-- The smear of a 32-bit value whose bit width is `n`, that is, `x < 2 ^ n` with `n = 0` or
`2 ^ (n - 1) ≤ x`, is `2 ^ n - 1`. -/
theorem smear32_of_width {x n : Nat} (hx : x < 2 ^ 32) (hlt : x < 2 ^ n)
    (hge : n = 0 ∨ 2 ^ (n - 1) ≤ x) : n ≤ 32 ∧ smear32 x = 2 ^ n - 1 := by
  by_cases h0 : x = 0
  · subst h0
    have hn : n = 0 := by
      rcases hge with h | h
      · exact h
      · have := Nat.two_pow_pos (n - 1)
        omega
    subst hn
    exact ⟨Nat.zero_le _, by decide⟩
  · have hn : n ≠ 0 := by
      rintro rfl
      simp at hlt
      exact h0 hlt
    have hge2 : 2 ^ (n - 1) ≤ x := by
      rcases hge with h | h
      · exact absurd h hn
      · exact h
    have h1 : n - 1 ≤ x.log2 := (Nat.le_log2 h0).2 hge2
    have h2 : x.log2 < n := (Nat.log2_lt h0).2 hlt
    have h3 : x.log2 < 32 := log2_lt_of_lt h0 hx
    have e : n = x.log2 + 1 := by omega
    have hb := testBit_log2 h0
    subst e
    exact ⟨by omega, smear32_eq hb.1 hb.2 h3⟩

/-- C20: the two 37-entry tables are calibrated to residues modulo 37.  In the trailing-zero
table the residues `2 ^ k mod 37`, `k < 32`, are nonzero and pairwise distinct, the entry at
`2 ^ k mod 37` is `k` and the entry at `0` is `32`; in the leading-zero table the residues
`(2 ^ n - 1) mod 37`, `n ≤ 32`, are pairwise distinct and the entry at `(2 ^ n - 1) mod 37` is
`32 - n`, where `2 ^ n - 1` is the value the five smear steps produce from every 32-bit input
of bit width `n` (`x < 2 ^ n`, and `n = 0` or `2 ^ (n - 1) ≤ x`). -/
theorem mod37_tables_calibrated :
    countr_mod37.length = 37 ∧ countl_mod37.length = 37 ∧
    (∀ k, k < 32 → 2 ^ k % 37 ≠ 0 ∧ countr_mod37.getD (2 ^ k % 37) 0 = k) ∧
    (∀ j k, j < 32 → k < 32 → 2 ^ j % 37 = 2 ^ k % 37 → j = k) ∧
    countr_mod37.getD 0 0 = 32 ∧
    (∀ m n, m ≤ 32 → n ≤ 32 → (2 ^ m - 1) % 37 = (2 ^ n - 1) % 37 → m = n) ∧
    (∀ n, n ≤ 32 → countl_mod37.getD ((2 ^ n - 1) % 37) 0 = 32 - n) ∧
    smear32 0 = 0 ∧
    (∀ x, x < 2 ^ 32 → x ≠ 0 → smear32 x = 2 ^ (x.log2 + 1) - 1) ∧
    (∀ x n, x < 2 ^ 32 → x < 2 ^ n → (n = 0 ∨ 2 ^ (n - 1) ≤ x) →
      n ≤ 32 ∧ smear32 x = 2 ^ n - 1 ∧
      countl_mod37.getD (smear32 x % 37) 0 = 32 - n) := by
  refine ⟨rfl, rfl, fun k hk => ⟨two_pow_mod37_ne_zero k hk, countr_table k hk⟩,
    fun j k hj hk h => ?_, rfl, fun m n hm hn h => ?_, countl_table, by decide,
    fun x hx h0 => ?_, fun x n hx hlt hge => ?_⟩
  · rw [← countr_table j hj, ← countr_table k hk, h]
  · have a := countl_table m hm
    have b := countl_table n hn
    rw [h] at a
    omega
  · have hb := testBit_log2 h0
    exact smear32_eq hb.1 hb.2 (log2_lt_of_lt h0 hx)
  · obtain ⟨hn, hs⟩ := smear32_of_width hx hlt hge
    exact ⟨hn, hs, by rw [hs]; exact countl_table n hn⟩

theorem mod37_tables_calibrated_witness :
    (0x00012345 : Nat) < 2 ^ 32 ∧ (0x00012345 : Nat) < 2 ^ 17 ∧ 2 ^ (17 - 1) ≤ 0x00012345 ∧
    smear32 0x00012345 = 2 ^ 17 - 1 ∧ smear32 0x00012345 = 0x0001FFFF ∧
    countl_mod37.getD (smear32 0x00012345 % 37) 0 = 32 - 17 :=
  ⟨by decide, by decide, by decide,
    (mod37_tables_calibrated.2.2.2.2.2.2.2.2.2 0x00012345 17 (by decide) (by decide)
      (Or.inr (by decide))).2.1,
    by decide,
    (mod37_tables_calibrated.2.2.2.2.2.2.2.2.2 0x00012345 17 (by decide) (by decide)
      (Or.inr (by decide))).2.2⟩

/-! ## The string view: element access and `substr` -/

namespace basic_string_view

/-- C14: `substr( pos, n )` throws `out_of_range` exactly when `pos > size()`; otherwise it
returns the view of length `min( n, size() - pos )` whose `i`-th character is the character
`pos + i` of the original, so `substr( 0, npos )` is the view itself and
`substr( size(), n )` is empty. -/
theorem substr_spec {Ch : Type} (v : List Ch) (pos n : Nat) (hv : size v ≤ npos) :
    (substr v pos n = .error .out_of_range ↔ pos > size v) ∧
    (pos ≤ size v → ∃ r, substr v pos n = .ok r ∧ size r = min n (size v - pos) ∧
      ∀ i, i < size r → r[i]? = v[pos + i]? ∧ operator_index r i = operator_index v (pos + i)) ∧
    substr v 0 npos = .ok v ∧
    substr v (size v) n = .ok [] := by
  refine ⟨?_, fun hpos => ?_, ?_, ?_⟩
  · unfold substr
    by_cases h : pos > size v <;> simp [h]
  · refine ⟨(v.drop pos).take (min n (size v - pos)), ?_, ?_, fun i hi => ?_⟩
    · unfold substr
      rw [if_neg (Nat.not_lt.2 hpos)]
    · simp [size]
    · have hlen : size ((v.drop pos).take (min n (size v - pos))) = min n (size v - pos) := by
        simp [size]
      rw [hlen] at hi
      have hget : ((v.drop pos).take (min n (size v - pos)))[i]? = v[pos + i]? := by
        rw [List.getElem?_take_of_lt hi, List.getElem?_drop]
      refine ⟨hget, ?_⟩
      have h1 : i < size ((v.drop pos).take (min n (size v - pos))) := by rw [hlen]; exact hi
      have h2 : pos + i < size v := by
        have := Nat.min_le_right n (size v - pos)
        omega
      unfold operator_index
      rw [dif_pos h1, dif_pos h2]
      simp only [List.get_eq_getElem]
      rw [← List.getElem?_eq_getElem, ← List.getElem?_eq_getElem]
      exact hget
  · unfold substr
    have h : min npos (size v - 0) = v.length := by
      unfold size at *; rw [Nat.sub_zero]; exact Nat.min_eq_right hv
    simp only [h, List.drop_zero, List.take_length, gt_iff_lt, Nat.not_lt_zero, if_false]
  · unfold substr
    simp

theorem substr_spec_witness :
    size [10, 20, 30, 40] ≤ npos ∧
    (substr [10, 20, 30, 40] 5 2 = .error .out_of_range ↔ 5 > size [10, 20, 30, 40]) ∧
    substr [10, 20, 30, 40] 0 npos = .ok [10, 20, 30, 40] :=
  ⟨by decide, (substr_spec [10, 20, 30, 40] 5 2 (by decide)).1,
    (substr_spec [10, 20, 30, 40] 5 2 (by decide)).2.2.1⟩

/-- C15: `at( pos )` throws `out_of_range` exactly when `pos >= size()`; otherwise it returns
the character at position `pos`, the one the unchecked `operator[]` returns. -/
theorem at_spec {Ch : Type} (v : List Ch) (pos : Nat) :
    (at_ v pos = .error .out_of_range ↔ pos ≥ size v) ∧
    (pos < size v →
      ∃ c, at_ v pos = .ok c ∧ operator_index v pos = some c ∧ v[pos]? = some c) := by
  constructor
  · unfold at_
    by_cases h : pos ≥ size v
    · simp [h]
    · rw [dif_neg h]; simp [h]
  · intro h
    have hn : ¬ pos ≥ size v := Nat.not_le.2 h
    refine ⟨v.get ⟨pos, h⟩, ?_, ?_, ?_⟩
    · unfold at_; rw [dif_neg hn]
    · unfold operator_index; rw [dif_pos h]
    · simp only [List.get_eq_getElem]
      exact List.getElem?_eq_getElem _

/-! ## The string view: character search -/

theorem traits_find_none {Ch : Type} [DecidableEq Ch] (v : List Ch) (c : Ch) (count : Nat) :
    ∀ p, traits_find v p count c = none ↔ ∀ i, p ≤ i → i < p + count → v[i]? ≠ some c := by
  induction count with
  | zero => intro p; simp [traits_find]; intro i h1 h2; omega
  | succ count ih =>
    intro p
    simp only [traits_find]
    by_cases h : v[p]? = some c
    · simp only [h, if_true]
      constructor
      · intro hh; cases hh
      · intro hh; exact absurd h (hh p (Nat.le_refl _) (by omega))
    · rw [if_neg h, ih]
      constructor
      · intro hh i h1 h2
        by_cases e : i = p
        · subst e; exact h
        · exact hh i (by omega) (by omega)
      · intro hh i h1 h2
        exact hh i (by omega) (by omega)

theorem traits_find_some {Ch : Type} [DecidableEq Ch] (v : List Ch) (c : Ch) (count : Nat) :
    ∀ p q, traits_find v p count c = some q →
      p ≤ q ∧ q < p + count ∧ v[q]? = some c ∧ ∀ i, p ≤ i → i < q → v[i]? ≠ some c := by
  induction count with
  | zero => intro p q h; simp [traits_find] at h
  | succ count ih =>
    intro p q hq
    simp only [traits_find] at hq
    by_cases h : v[p]? = some c
    · rw [if_pos h] at hq
      cases hq
      exact ⟨Nat.le_refl _, by omega, h, fun i h1 h2 => by omega⟩
    · rw [if_neg h] at hq
      obtain ⟨h1, h2, h3, h4⟩ := ih _ _ hq
      refine ⟨by omega, by omega, h3, fun i hi1 hi2 => ?_⟩
      by_cases e : i = p
      · subst e; exact h
      · exact h4 i (by omega) hi2

/-- What `contains( c )` computes: it is true exactly when `c` does not occur in the view. -/
theorem contains_iff {Ch : Type} [DecidableEq Ch] (v : List Ch) (c : Ch) :
    contains v c = true ↔ ¬ ∃ i, i < size v ∧ v[i]? = some c := by
  unfold contains
  rw [Option.isNone_iff_eq_none, traits_find_none]
  constructor
  · rintro h ⟨i, hi, hc⟩
    exact h i (Nat.zero_le _) (by omega) hc
  · intro h i _ hi hc
    exact h ⟨i, by omega, hc⟩

/-- C16 (the code at the failing inputs): `contains( c )` returns `false` for a character
that occurs in the view and `true` on the empty view, because the result of
`traits_type::find` is compared with the null pointer by `==`. -/
theorem contains_char_inverted :
    contains ['a', 'b', 'c'] 'a' = false ∧ contains ([] : List Char) 'a' = true ∧
    (∃ i, i < size ['a', 'b', 'c'] ∧ ['a', 'b', 'c'][i]? = some 'a') := by
  refine ⟨by decide, by decide, ⟨0, by decide, by decide⟩⟩

theorem find_last_not_of_loop_spec {Ch : Type} [DecidableEq Ch] (v : List Ch) (c : Ch) :
    ∀ m, m ≤ size v →
      (find_last_not_of_loop v c m = npos ∧ ∀ i, i < m → v[i]? = some c) ∨
      (find_last_not_of_loop v c m < m ∧ v[find_last_not_of_loop v c m]? ≠ some c ∧
        ∀ i, find_last_not_of_loop v c m < i → i < m → v[i]? = some c) := by
  intro m
  induction m with
  | zero => intro _; left; exact ⟨rfl, fun i hi => absurd hi (Nat.not_lt_zero _)⟩
  | succ m ih =>
    intro hm
    simp only [find_last_not_of_loop]
    by_cases h : v[m]? = some c
    · simp only [h, ne_eq, not_true_eq_false, if_false]
      rcases ih (by omega) with ⟨h1, h2⟩ | ⟨h1, h2, h3⟩
      · left
        refine ⟨h1, fun i hi => ?_⟩
        by_cases e : i = m
        · subst e; exact h
        · exact h2 i (by omega)
      · right
        refine ⟨by omega, h2, fun i hi1 hi2 => ?_⟩
        by_cases e : i = m
        · subst e; exact h
        · exact h3 i hi1 (by omega)
    · right
      have hne : v[m]? ≠ some c := h
      rw [if_pos hne]
      exact ⟨Nat.lt_succ_self m, h, fun i h1 h2 => by omega⟩

/-- C19 (the code at the failing inputs): `find_last_not_of( c, pos )` scans the indices
`pos - 1, …, 0` and never looks at index `pos`: on the view "abc" with `c = 'x'` and
`pos = 1` it returns `0`, and on the view "a" with `pos = 0` it returns `npos`. -/
theorem find_last_not_of_skips_pos :
    find_last_not_of ['a', 'b', 'c'] 'x' 1 = 0 ∧
    (['a', 'b', 'c'][1]? ≠ some 'x' ∧ 1 < size ['a', 'b', 'c']) ∧
    find_last_not_of ['a'] 'x' 0 = npos ∧
    find_last_not_of ['a', 'b', 'c'] 'x' npos = 2 := by
  refine ⟨by decide, ⟨by decide, by decide⟩, by decide, by decide⟩

/-! ## The string view: `compare` -/

theorem compare_nil_nil {Ch : Type} [LinearOrder Ch] : compare ([] : List Ch) [] = 0 := by
  simp [compare, size, traits_compare]

theorem compare_nil_cons {Ch : Type} [LinearOrder Ch] (y : Ch) (ys : List Ch) :
    compare [] (y :: ys) = -1 := by
  simp [compare, size, traits_compare]

theorem compare_cons_nil {Ch : Type} [LinearOrder Ch] (x : Ch) (xs : List Ch) :
    compare (x :: xs) [] = 1 := by
  simp [compare, size, traits_compare]

theorem compare_cons_cons {Ch : Type} [LinearOrder Ch] (x y : Ch) (xs ys : List Ch) :
    compare (x :: xs) (y :: ys) =
      if x < y then -1 else if y < x then 1 else compare xs ys := by
  have hmin : min (xs.length + 1) (ys.length + 1) = min xs.length ys.length + 1 := by
    rcases Nat.le_total xs.length ys.length with h | h
    · rw [Nat.min_eq_left h, Nat.min_eq_left (by omega)]
    · rw [Nat.min_eq_right h, Nat.min_eq_right (by omega)]
  simp only [compare, size, List.length_cons, hmin, traits_compare]
  by_cases h1 : x < y
  · simp [h1]
  · by_cases h2 : y < x
    · simp [h1, h2]
    · simp only [h1, h2, if_false, Nat.add_right_cancel_iff, Nat.add_lt_add_iff_right]

theorem lexLt_nil_cons {Ch : Type} [LinearOrder Ch] (y : Ch) (ys : List Ch) :
    LexLt [] (y :: ys) :=
  ⟨0, rfl, Or.inl ⟨rfl, Nat.succ_pos _⟩⟩

theorem not_lexLt_nil {Ch : Type} [LinearOrder Ch] (a : List Ch) : ¬ LexLt a [] := by
  rintro ⟨i, _, ⟨_, h⟩ | ⟨x, y, _, h, _⟩⟩
  · exact absurd h (Nat.not_lt_zero _)
  · simp at h

theorem lexLt_cons_cons {Ch : Type} [LinearOrder Ch] (x y : Ch) (xs ys : List Ch) :
    LexLt (x :: xs) (y :: ys) ↔ x < y ∨ (x = y ∧ LexLt xs ys) := by
  constructor
  · rintro ⟨i, ht, hi⟩
    cases i with
    | zero =>
      rcases hi with ⟨h, _⟩ | ⟨a, b, ha, hb, hab⟩
      · simp at h
      · simp only [List.getElem?_cons_zero, Option.some.injEq] at ha hb
        subst ha; subst hb
        exact Or.inl hab
    | succ i =>
      simp only [List.take_succ_cons, List.cons.injEq] at ht
      refine Or.inr ⟨ht.1, i, ht.2, ?_⟩
      rcases hi with ⟨h1, h2⟩ | ⟨a, b, ha, hb, hab⟩
      · left
        simp only [List.length_cons] at h1 h2
        exact ⟨by omega, by omega⟩
      · right
        simp only [List.getElem?_cons_succ] at ha hb
        exact ⟨a, b, ha, hb, hab⟩
  · rintro (h | ⟨rfl, i, ht, hi⟩)
    · exact ⟨0, rfl, Or.inr ⟨x, y, by simp, by simp, h⟩⟩
    · refine ⟨i + 1, by simp [ht], ?_⟩
      rcases hi with ⟨h1, h2⟩ | ⟨a, b, ha, hb, hab⟩
      · left
        simp only [List.length_cons]
        exact ⟨by omega, by omega⟩
      · right
        exact ⟨a, b, by simpa using ha, by simpa using hb, hab⟩

/-- The three outcomes of `compare`, each with the relation between the two views. -/
theorem compare_cases {Ch : Type} [LinearOrder Ch] (a : List Ch) :
    ∀ b : List Ch,
      (compare a b = -1 ∧ LexLt a b ∧ a ≠ b ∧ ¬ LexLt b a) ∨
      (compare a b = 0 ∧ a = b ∧ ¬ LexLt a b ∧ ¬ LexLt b a) ∨
      (compare a b = 1 ∧ LexLt b a ∧ a ≠ b ∧ ¬ LexLt a b) := by
  induction a with
  | nil =>
    intro b
    cases b with
    | nil => exact Or.inr (Or.inl ⟨compare_nil_nil, rfl, not_lexLt_nil _, not_lexLt_nil _⟩)
    | cons y ys =>
      exact Or.inl ⟨compare_nil_cons y ys, lexLt_nil_cons y ys, by simp, not_lexLt_nil _⟩
  | cons x xs ih =>
    intro b
    cases b with
    | nil =>
      exact Or.inr (Or.inr ⟨compare_cons_nil x xs, lexLt_nil_cons x xs, by simp,
        not_lexLt_nil _⟩)
    | cons y ys =>
      rw [compare_cons_cons, lexLt_cons_cons, lexLt_cons_cons]
      rcases lt_trichotomy x y with h | h | h
      · left
        refine ⟨by simp [h], Or.inl h, ?_, ?_⟩
        · intro e; simp only [List.cons.injEq] at e; exact absurd e.1 (ne_of_lt h)
        · rintro (h' | ⟨h', _⟩)
          · exact absurd h' (not_lt_of_lt h)
          · exact absurd h'.symm (ne_of_lt h)
      · subst h
        simp only [lt_irrefl, if_false, false_or, true_and, List.cons.injEq, ne_eq]
        exact ih ys
      · right; right
        refine ⟨by simp [h, not_lt_of_lt h], Or.inl h, ?_, ?_⟩
        · intro e; simp only [List.cons.injEq] at e; exact absurd e.1.symm (ne_of_lt h)
        · rintro (h' | ⟨h', _⟩)
          · exact absurd h' (not_lt_of_lt h)
          · exact absurd h' (ne_of_lt h).symm

theorem list_eq_iff_getElem? {Ch : Type} (a b : List Ch) :
    a = b ↔ (size a = size b ∧ ∀ i, i < size a → a[i]? = b[i]?) := by
  constructor
  · rintro rfl; exact ⟨rfl, fun _ _ => rfl⟩
  · rintro ⟨hl, h⟩
    apply List.ext_getElem? 
    intro i
    by_cases hi : i < size a
    · exact h i hi
    · unfold size at *
      rw [List.getElem?_eq_none (by omega), List.getElem?_eq_none (by omega)]

/-- C17: `a.compare( b )` is `0` exactly when the views have the same length and characters,
negative exactly when `a` is lexicographically less than `b`, and positive otherwise, so
its sign is the opposite of the sign of `b.compare( a )`. -/
theorem compare_spec {Ch : Type} [LinearOrder Ch] (a b : List Ch) :
    (compare a b = 0 ↔ (size a = size b ∧ ∀ i, i < size a → a[i]? = b[i]?)) ∧
    (compare a b < 0 ↔ LexLt a b) ∧
    (0 < compare a b ↔ ¬ compare a b = 0 ∧ ¬ LexLt a b) ∧
    (0 < compare a b ↔ LexLt b a) ∧
    (compare a b).sign = -(compare b a).sign := by
  rw [← list_eq_iff_getElem?]
  have hab := compare_cases a b
  have hba := compare_cases b a
  rcases hab with ⟨h1, h2, h3, h4⟩ | ⟨h1, h2, h3, h4⟩ | ⟨h1, h2, h3, h4⟩
  · rcases hba with ⟨_, g2, _, _⟩ | ⟨_, g2, _, _⟩ | ⟨g1, _, _, _⟩
    · exact absurd g2 h4
    · exact absurd g2.symm h3
    · exact ⟨iff_of_false (by rw [h1]; decide) h3, iff_of_true (by rw [h1]; decide) h2,
        iff_of_false (by rw [h1]; decide) (fun h => h.2 h2),
        iff_of_false (by rw [h1]; decide) h4, by rw [h1, g1]; rfl⟩
  · rcases hba with ⟨_, g2, _, _⟩ | ⟨g1, _, _, _⟩ | ⟨_, g2, _, _⟩
    · exact absurd g2 h4
    · exact ⟨iff_of_true h1 h2, iff_of_false (by rw [h1]; decide) h3,
        iff_of_false (by rw [h1]; decide) (fun h => h.1 h1),
        iff_of_false (by rw [h1]; decide) h4, by rw [h1, g1]; rfl⟩
    · exact absurd g2 h3
  · rcases hba with ⟨g1, _, _, _⟩ | ⟨_, g2, _, _⟩ | ⟨_, g2, _, _⟩
    · exact ⟨iff_of_false (by rw [h1]; decide) h3, iff_of_false (by rw [h1]; decide) h4,
        iff_of_true (by rw [h1]; decide) ⟨by rw [h1]; decide, h4⟩,
        iff_of_true (by rw [h1]; decide) h2, by rw [h1, g1]; rfl⟩
    · exact absurd g2.symm h3
    · exact absurd g2 h4

/-! ## The string view: `find` -/

theorem traits_compare_eq_zero_iff {Ch : Type} [LinearOrder Ch] (count : Nat) :
    ∀ a b : List Ch, count ≤ a.length → count ≤ b.length →
      (traits_compare a b count = 0 ↔ ∀ j, j < count → a[j]? = b[j]?) := by
  induction count with
  | zero =>
    intro a b _ _
    have : traits_compare a b 0 = 0 := by cases a <;> cases b <;> rfl
    simp [this]
  | succ count ih =>
    intro a b ha hb
    cases a with
    | nil => simp at ha
    | cons x xs =>
      cases b with
      | nil => simp at hb
      | cons y ys =>
        simp only [List.length_cons, Nat.add_le_add_iff_right] at ha hb
        simp only [traits_compare]
        constructor
        · intro h j hj
          by_cases h1 : x < y
          · simp [h1] at h
          · by_cases h2 : y < x
            · simp [h1, h2] at h
            · simp only [h1, h2, if_false] at h
              have hxy : x = y := le_antisymm (not_lt.1 h2) (not_lt.1 h1)
              cases j with
              | zero => simp [hxy]
              | succ j =>
                simp only [List.getElem?_cons_succ]
                exact (ih xs ys ha hb).1 h j (by omega)
        · intro h
          have h0 := h 0 (Nat.succ_pos _)
          simp only [List.getElem?_cons_zero, Option.some.injEq] at h0
          subst h0
          simp only [lt_irrefl, if_false]
          refine (ih xs ys ha hb).2 (fun j hj => ?_)
          have := h (j + 1) (by omega)
          simpa only [List.getElem?_cons_succ] using this

/-- An occurrence not before `p` starts at or after the first `c0` found from `p` on. -/
theorem occursAt_ge_first {Ch : Type} {v s : List Ch} {n p q i : Nat} {c0 : Ch}
    (hn : 0 < n) (hs0 : s[0]? = some c0)
    (hbefore : ∀ k, p ≤ k → k < q → v[k]? ≠ some c0) (h : OccursAt v s p n i) : q ≤ i := by
  by_contra hlt
  have h0 := h.2.2 0 hn
  rw [Nat.add_zero, hs0] at h0
  exact hbefore i h.1 (by omega) h0

theorem find_loop_spec {Ch : Type} [LinearOrder Ch] (v s : List Ch) (n : Nat) (c0 : Ch)
    (hn : 0 < n) (hs0 : s[0]? = some c0) (hsn : n ≤ s.length) :
    ∀ rounds p, size v - p < rounds →
      ∃ r, find_loop v s n c0 rounds p = some r ∧
        ((∃ i, OccursAt v s p n i) → OccursAt v s p n r ∧ ∀ i, OccursAt v s p n i → r ≤ i) ∧
        ((¬ ∃ i, OccursAt v s p n i) → r = npos) := by
  intro rounds
  induction rounds with
  | zero => intro p h; omega
  | succ rounds ih =>
    intro p hp
    simp only [find_loop]
    cases hf : traits_find v p (size v - p) c0 with
    | none =>
      have hnone := (traits_find_none v c0 (size v - p) p).1 hf
      have hno : ¬ ∃ i, OccursAt v s p n i := by
        rintro ⟨i, hi⟩
        have h0 := hi.2.2 0 hn
        rw [Nat.add_zero, hs0] at h0
        have h2 := hi.2.1
        unfold size at hnone
        exact hnone i hi.1 (by omega) h0
      exact ⟨npos, rfl, fun h => absurd h hno, fun _ => rfl⟩
    | some q =>
      obtain ⟨hpq, hq, hvq, hbefore⟩ := traits_find_some v c0 _ _ _ hf
      have hge : ∀ i, OccursAt v s p n i → q ≤ i :=
        fun i hi => occursAt_ge_first hn hs0 hbefore hi
      unfold size at hq hp
      simp only []
      by_cases h1 : size v - q < n
      · rw [if_pos h1]
        have hno : ¬ ∃ i, OccursAt v s p n i := by
          rintro ⟨i, hi⟩
          have := hge i hi
          have h2 := hi.2.1
          unfold size at h1
          omega
        exact ⟨npos, rfl, fun h => absurd h hno, fun _ => rfl⟩
      · rw [if_neg h1]
        unfold size at h1
        have hcmp := traits_compare_eq_zero_iff n (v.drop q) s
          (by rw [List.length_drop]; omega) hsn
        by_cases h2 : traits_compare (v.drop q) s n = 0
        · rw [if_pos h2]
          have hocc : OccursAt v s p n q :=
            ⟨hpq, by omega, fun j hj => by
              have := hcmp.1 h2 j hj
              rwa [List.getElem?_drop] at this⟩
          exact ⟨q, rfl, fun _ => ⟨hocc, hge⟩, fun h => absurd ⟨q, hocc⟩ h⟩
        · rw [if_neg h2]
          have hiff : ∀ i, OccursAt v s p n i ↔ OccursAt v s (q + 1) n i := by
            intro i
            constructor
            · intro hi
              have hqi := hge i hi
              have hne : i ≠ q := by
                rintro rfl
                apply h2
                refine hcmp.2 (fun j hj => ?_)
                rw [List.getElem?_drop]
                exact hi.2.2 j hj
              exact ⟨by omega, hi.2.1, hi.2.2⟩
            · intro hi
              exact ⟨by have := hi.1; omega, hi.2.1, hi.2.2⟩
          obtain ⟨r, hr, hyes, hno⟩ := ih (q + 1) (by unfold size; omega)
          refine ⟨r, hr, ?_, ?_⟩
          · rintro ⟨i, hi⟩
            obtain ⟨a, b⟩ := hyes ⟨i, (hiff i).1 hi⟩
            exact ⟨(hiff r).2 a, fun k hk => b k ((hiff k).1 hk)⟩
          · intro h
            exact hno (fun ⟨i, hi⟩ => h ⟨i, (hiff i).2 hi⟩)

/-- C18: for a needle `s` of `n` characters and `pos + n` not overflowing,
`find( s, pos, n )` returns the smallest index `i >= pos` with `i + n <= size()` at which
the needle occurs, and `npos` when there is none (in particular when `pos + n > size()`);
for `n = 0` and `pos <= size()` it returns `pos`. -/
theorem find_spec {Ch : Type} [LinearOrder Ch] (v s : List Ch) (pos n : Nat)
    (hsn : n ≤ s.length) (hov : pos + n < 2 ^ 64) :
    ∃ r, find v s pos n = some r ∧
      ((∃ i, OccursAt v s pos n i) →
        OccursAt v s pos n r ∧ ∀ i, OccursAt v s pos n i → r ≤ i) ∧
      ((¬ ∃ i, OccursAt v s pos n i) → r = npos) ∧
      (pos + n > size v → r = npos) ∧
      (n = 0 → pos ≤ size v → r = pos) := by
  unfold find
  rw [Nat.mod_eq_of_lt hov]
  by_cases h1 : pos + n > size v
  · rw [if_pos h1]
    have hno : ¬ ∃ i, OccursAt v s pos n i := by
      rintro ⟨i, hi⟩
      have a := hi.1
      have b := hi.2.1
      unfold size at h1
      omega
    exact ⟨npos, rfl, fun h => absurd h hno, fun _ => rfl, fun _ => rfl,
      fun h0 hp => by omega⟩
  · rw [if_neg h1]
    by_cases h2 : n = 0
    · rw [if_pos h2]
      subst h2
      have hocc : OccursAt v s pos 0 pos :=
        ⟨Nat.le_refl _, by unfold size at h1; omega, fun j hj => absurd hj (Nat.not_lt_zero _)⟩
      exact ⟨pos, rfl, fun _ => ⟨hocc, fun i hi => hi.1⟩, fun h => absurd ⟨pos, hocc⟩ h,
        fun h => absurd h h1, fun _ _ => rfl⟩
    · rw [if_neg h2]
      cases s with
      | nil => simp at hsn; exact absurd hsn h2
      | cons c0 s' =>
        obtain ⟨r, hr, hyes, hno⟩ := find_loop_spec v (c0 :: s') n c0 (by omega)
          (List.getElem?_cons_zero) hsn
          (size v - pos + 1) pos (by omega)
        exact ⟨r, hr, hyes, hno, fun h => absurd h h1, fun h => absurd h h2⟩

theorem find_spec_witness :
    (2 : Nat) ≤ [2, 3].length ∧ 1 + 2 < 2 ^ 64 ∧
    find [1, 2, 9, 2, 3, 2, 3] [2, 3] 1 2 = some 3 ∧
    ∃ r, find [1, 2, 9, 2, 3, 2, 3] [2, 3] 1 2 = some r ∧
      ((∃ i, OccursAt [1, 2, 9, 2, 3, 2, 3] [2, 3] 1 2 i) →
        OccursAt [1, 2, 9, 2, 3, 2, 3] [2, 3] 1 2 r ∧
          ∀ i, OccursAt [1, 2, 9, 2, 3, 2, 3] [2, 3] 1 2 i → r ≤ i) ∧
      ((¬ ∃ i, OccursAt [1, 2, 9, 2, 3, 2, 3] [2, 3] 1 2 i) → r = npos) ∧
      (1 + 2 > size [1, 2, 9, 2, 3, 2, 3] → r = npos) ∧
      (2 = 0 → 1 ≤ size [1, 2, 9, 2, 3, 2, 3] → r = 1) :=
  ⟨by decide, by decide, by decide,
    find_spec [1, 2, 9, 2, 3, 2, 3] [2, 3] 1 2 (by decide) (by decide)⟩

end basic_string_view

/-! ## `bit_ceil` above the precondition range -/

/-- Above `2 ^ (W - 1)` the smear of `x - 1` fills all `W` bits. -/
theorem smear_full (smear : Nat → Nat) {W x : Nat} (hW : 0 < W)
    (hleast : ∃ n, smear (x - 1) = 2 ^ n - 1 ∧ x - 1 < 2 ^ n ∧ ∀ w, x - 1 < 2 ^ w → n ≤ w)
    (hx : x < 2 ^ W) (hbig : 2 ^ (W - 1) < x) : smear (x - 1) + 1 = 2 ^ W := by
  obtain ⟨n, hn, hlt, hmin⟩ := hleast
  have h1 : n ≤ W := hmin W (by omega)
  have h2 : ¬ n ≤ W - 1 := by
    intro hle
    have : 2 ^ n ≤ 2 ^ (W - 1) := Nat.pow_le_pow_right (by decide) hle
    omega
  have e : n = W := by omega
  subst e
  have := Nat.two_pow_pos n
  omega

theorem bit_ceil_impl_u32_full {W x : Nat} (hW : 0 < W) (hW32 : W ≤ 32) (hx : x < 2 ^ W)
    (hbig : 2 ^ (W - 1) < x) : bit_ceil_impl_u32 x = 2 ^ W % 2 ^ 32 := by
  have hx32 : x < 2 ^ 32 := lt_of_lt_of_le hx (Nat.pow_le_pow_right (by decide) hW32)
  have hx0 : x ≠ 0 := Nat.not_eq_zero_of_lt hbig
  unfold bit_ceil_impl_u32
  rw [if_neg hx0, smear_full smear32 hW (smear32_least (by omega)) hx hbig]

theorem bit_ceil_impl_u64_full {x : Nat} (hx : x < 2 ^ 64) (hbig : 2 ^ 63 < x) :
    bit_ceil_impl_u64 x = 0 := by
  have hx0 : x ≠ 0 := Nat.not_eq_zero_of_lt hbig
  unfold bit_ceil_impl_u64
  rw [if_neg hx0, smear_full smear64 (by decide) (smear64_least (by omega)) hx hbig,
    Nat.mod_self]

theorem bit_ceil_big (T : UIntT) {x : Nat} (hx : x < 2 ^ digits T)
    (hbig : 2 ^ (digits T - 1) < x) : bit_ceil T x = 0 := by
  cases T
  · have h : x < 2 ^ 8 := hx
    have e : x % 2 ^ 32 = x := Nat.mod_eq_of_lt (by omega)
    simp only [bit_ceil, truncT, digits]
    rw [e, bit_ceil_impl_u32_full (by decide) (by decide) h hbig]
    decide
  · have h : x < 2 ^ 16 := hx
    have e : x % 2 ^ 32 = x := Nat.mod_eq_of_lt (by omega)
    simp only [bit_ceil, truncT, digits]
    rw [e, bit_ceil_impl_u32_full (by decide) (by decide) h hbig]
    decide
  · have h : x < 2 ^ 32 := hx
    have e : x % 2 ^ 32 = x := Nat.mod_eq_of_lt h
    simp only [bit_ceil, truncT, digits]
    rw [e, bit_ceil_impl_u32_full (by decide) (by decide) h hbig]
    decide
  · have h : x < 2 ^ 64 := hx
    have e : x % 2 ^ 64 = x := Nat.mod_eq_of_lt h
    simp only [bit_ceil, truncT, digits]
    rw [e, bit_ceil_impl_u64_full h hbig]
    decide

/-- C21: outside the precondition range `bit_ceil` wraps to zero: for `x > 2 ^ (W - 1)` the
result is `0` (for 32 and 64 bits the final increment wraps, for 8 and 16 bits the 32-bit
result `2 ^ W` is truncated to `W` bits), so for every `W`-bit `x` the result is either `0`
or a power of two not less than `x`. -/
theorem bit_ceil_wraps (T : UIntT) (x : Nat) (hx : x < 2 ^ digits T) :
    (2 ^ (digits T - 1) < x → bit_ceil T x = 0) ∧
    (2 ^ (digits T - 1) < x →
      match T with
      | .u8 => bit_ceil_impl_u32 x = 2 ^ 8
      | .u16 => bit_ceil_impl_u32 x = 2 ^ 16
      | .u32 => smear32 (x - 1) + 1 = 2 ^ 32 ∧ bit_ceil_impl_u32 x = 0
      | .u64 => smear64 (x - 1) + 1 = 2 ^ 64 ∧ bit_ceil_impl_u64 x = 0) ∧
    (bit_ceil T x = 0 ∨ ∃ k, k < digits T ∧ bit_ceil T x = 2 ^ k ∧ x ≤ bit_ceil T x) := by
  refine ⟨fun hbig => bit_ceil_big T hx hbig, fun hbig => ?_, ?_⟩
  · cases T
    · exact bit_ceil_impl_u32_full (by decide) (by decide) hx hbig
    · exact bit_ceil_impl_u32_full (by decide) (by decide) hx hbig
    · have h : x < 2 ^ 32 := hx
      exact ⟨smear_full smear32 (by decide) (smear32_least (by omega)) hx hbig,
        bit_ceil_impl_u32_full (by decide) (by decide) hx hbig⟩
    · have h : x < 2 ^ 64 := hx
      exact ⟨smear_full smear64 (by decide) (smear64_least (by omega)) hx hbig,
        bit_ceil_impl_u64_full hx hbig⟩
  · by_cases h0 : x = 0
    · subst h0; exact Or.inl (bit_ceil_zero T)
    · by_cases hpre : x ≤ 2 ^ (digits T - 1)
      · obtain ⟨n, hn, he, hle, _⟩ := bit_ceil_pos T h0 hpre
        exact Or.inr ⟨n, hn, he, by rw [he]; exact hle⟩
      · exact Or.inl (bit_ceil_big T hx (Nat.lt_of_not_le hpre))

theorem bit_ceil_wraps_witness :
    (200 : Nat) < 2 ^ digits .u8 ∧ 2 ^ (digits .u8 - 1) < 200 ∧ bit_ceil .u8 200 = 0 :=
  ⟨by decide, by decide, (bit_ceil_wraps .u8 200 (by decide)).1 (by decide)⟩

/-! ## Powers of two, by counting zeros -/

theorem lowest_le_log2 {x c : Nat} (hx0 : x ≠ 0) (hc : x.testBit c = true) : c ≤ x.log2 := by
  by_contra h
  have := (testBit_log2 hx0).2 c (by omega)
  rw [hc] at this
  cases this

theorem eq_two_pow_of_lowest_eq_highest {x : Nat} (hx0 : x ≠ 0)
    (hlo : ∀ i, i < x.log2 → x.testBit i = false) : x = 2 ^ x.log2 := by
  have hb := testBit_log2 hx0
  apply Nat.eq_of_testBit_eq
  intro i
  rw [Nat.testBit_two_pow]
  rcases Nat.lt_trichotomy i x.log2 with h | h | h
  · rw [hlo i h]; simp; omega
  · subst h; rw [hb.1]; simp
  · rw [hb.2 i h]; simp; omega

/-- C22: for `x ≠ 0`, `countl_zero( x ) + countr_zero( x ) ≤ W - 1`, with equality exactly
when `has_single_bit( x )`; for `x = 0` the sum is `2 * W`. -/
theorem countl_countr_sum (T : UIntT) (x : Nat) (hx : x < 2 ^ digits T) :
    (x ≠ 0 → countl_zero T x + countr_zero T x ≤ (digits T : Int) - 1 ∧
      (countl_zero T x + countr_zero T x = (digits T : Int) - 1 ↔ has_single_bit T x = true)) ∧
    (x = 0 → countl_zero T x + countr_zero T x = 2 * (digits T : Int)) := by
  constructor
  · intro hx0
    obtain ⟨c, hc, hlo⟩ := exists_lowest_bit hx0
    have hch := lowest_le_log2 hx0 hc
    rw [countl_zero_pos T hx0 hx, countr_zero_pos T hx hc hlo, has_single_bit_iff T hx]
    refine ⟨by omega, ?_, ?_⟩
    · intro hsum
      have e : c = x.log2 := by omega
      subst e
      exact ⟨x.log2, log2_lt_of_lt hx0 hx, eq_two_pow_of_lowest_eq_highest hx0 hlo⟩
    · rintro ⟨k, _, hk⟩
      have h1 : k = c := by
        have := hc
        rw [hk, Nat.testBit_two_pow] at this
        simpa using this
      have h2 : x.log2 = k := by rw [hk, Nat.log2_two_pow]
      omega
  · rintro rfl
    rw [countl_zero_zero, countr_zero_zero]
    ring

theorem countl_countr_sum_witness :
    (64 : Nat) < 2 ^ digits .u16 ∧ (64 : Nat) ≠ 0 ∧
    (countl_zero .u16 64 + countr_zero .u16 64 = (digits .u16 : Int) - 1 ↔
      has_single_bit .u16 64 = true) :=
  ⟨by decide, by decide, ((countl_countr_sum .u16 64 (by decide)).1 (by decide)).2⟩

end Boost.Core
